import Mathlib

/-!
Verification of the chunk-upload library: a shallow embedding of the
chunking, strategy, retry, validation, worker-pool and batch-driver logic
from the TypeScript sources, together with theorems settling the spec
claims.

Conventions of the embedding:
* JavaScript numbers that are used as non-negative integers are `Nat`
  (with `Int` where a JS decrement may pass below zero).
* Optional (`x?: T`) parameters are `Option`.
* The JS expression `x || d` over possibly-undefined numbers is `jsOr`.
* Asynchronous code is modelled by explicit state passing; the outcome of
  a fallible operation is `Except`.
* A JS `ArrayBuffer` is modelled as an object identity (`Nat`) together
  with its byte content, because a JS `Map` keys objects by reference.
-/

/-- Model of a browser `File` object: metadata only. The byte content of a
file is threaded separately where code reads it, since `File.size` is a
metadata field in the host and none of the claims tie it to the bytes. -/
structure MFile where
  name : String
  type : String
  size : Nat
  lastModified : Nat
  deriving Repr, DecidableEq

/-- Model of `ChunkInfo` from `types.ts`: `stop` models the source field
`end` (a Lean keyword). -/
structure ChunkInfo where
  start : Nat
  stop : Nat
  index : Nat
  hash : String
  deriving Repr, DecidableEq

/-- Error kinds from the `ChunkUploadError` enum in `types.ts`. -/
inductive ErrType where
  | FILE_READ_ERROR
  | WORKER_ERROR
  | HASH_ERROR
  | INVALID_FILE
  | WORKER_LOAD_ERROR
  deriving Repr, DecidableEq

/-- Model of `UploadError` from `types.ts` (the `originalError` field is
dropped: no claim inspects it). Message strings are fixed English stand-ins
for the source template strings. -/
structure UploadError where
  type : ErrType
  message : String
  file : Option MFile
  chunkIndex : Option Nat
  deriving Repr, DecidableEq

/-- JavaScript `x || d` for a possibly-undefined number `x`: `undefined`
and `0` are falsy, any other Nat is truthy. -/
def jsOr (v : Option Nat) (dflt : Nat) : Nat :=
  match v with
  | none => dflt
  | some n => if n = 0 then dflt else n

/-- One mebibyte, the unit used throughout `chunkStrategy.ts`. -/
def MiB : Nat := 1024 * 1024

/-- Ceiling division, `Math.ceil(a / b)` for natural `a` and positive `b`. -/
def ceilDiv (a b : Nat) : Nat := (a + b - 1) / b

/-- Result record of `calculateChunkStrategy` (`chunkStrategy.ts`). -/
structure ChunkStrategy where
  chunkSize : Nat
  workerCount : Nat
  deriving Repr, DecidableEq

/-- Embedding of `calculateChunkStrategy` (`chunkStrategy.ts` lines 20-56).
`hardwareConcurrency` models `navigator.hardwareConcurrency`, which may be
unreported (`none`) or zero; both fall back to 4 via `||`. -/
def calculateChunkStrategy (fileSize : Nat) (maxWorkers : Option Nat)
    (hardwareConcurrency : Option Nat) : ChunkStrategy :=
  let defaultMaxWorkers := jsOr hardwareConcurrency 4
  let maxWorkerCount := jsOr maxWorkers defaultMaxWorkers
  if fileSize < 10 * MiB then
    { chunkSize := 1 * MiB, workerCount := min 2 maxWorkerCount }
  else if fileSize < 100 * MiB then
    { chunkSize := 5 * MiB, workerCount := min 4 maxWorkerCount }
  else if fileSize < 1024 * MiB then
    { chunkSize := 10 * MiB, workerCount := min 6 maxWorkerCount }
  else
    { chunkSize := 20 * MiB, workerCount := maxWorkerCount }

/-- Embedding of `calculateWorkerCount` (`chunkStrategy.ts` lines 64-77). -/
def calculateWorkerCount (chunkCount : Nat) (maxWorkers : Option Nat)
    (hardwareConcurrency : Option Nat) : Nat :=
  let defaultMaxWorkers := jsOr hardwareConcurrency 4
  let maxWorkerCount := jsOr maxWorkers defaultMaxWorkers
  if chunkCount < maxWorkerCount then max 1 chunkCount else maxWorkerCount

/-- The effective worker cap, stated the way the (amended) claim words it:
the hint when given and nonzero, else the reported parallelism when
reported and nonzero, else 4. -/
def effectiveCap (maxWorkers : Option Nat) (hardwareConcurrency : Option Nat) : Nat :=
  match maxWorkers with
  | some m => if m ≠ 0 then m else jsOr hardwareConcurrency 4
  | none => jsOr hardwareConcurrency 4

theorem effectiveCap_eq_jsOr (mw hc : Option Nat) :
    effectiveCap mw hc = jsOr mw (jsOr hc 4) := by
  cases mw with
  | none => rfl
  | some m =>
    by_cases h : m = 0 <;> simp [effectiveCap, jsOr, h]

/-! Retry wrapper, from `utils/retry.ts`. -/

/-- Resolved retry configuration, `Required<RetryConfig>`. -/
structure RetryConfigR where
  maxRetries : Nat
  retryDelay : Nat
  retryDelayMultiplier : Nat
  deriving Repr, DecidableEq

/-- Default config `DEFAULT_RETRY_CONFIG` from `retry.ts` lines 8-12. -/
def DEFAULT_RETRY_CONFIG : RetryConfigR :=
  { maxRetries := 3, retryDelay := 1000, retryDelayMultiplier := 2 }

/-- Caller-supplied `RetryConfig` with optional fields (`types.ts`). -/
structure RetryConfig where
  maxRetries : Option Nat
  retryDelay : Option Nat
  retryDelayMultiplier : Option Nat
  deriving Repr, DecidableEq

/-- The spread merge `\x7b ...DEFAULT_RETRY_CONFIG, ...config \x7d`:
each present field of `config` overrides the default. -/
def mergeRetryConfig (config : Option RetryConfig) : RetryConfigR :=
  match config with
  | none => DEFAULT_RETRY_CONFIG
  | some c =>
    { maxRetries := c.maxRetries.getD DEFAULT_RETRY_CONFIG.maxRetries
      retryDelay := c.retryDelay.getD DEFAULT_RETRY_CONFIG.retryDelay
      retryDelayMultiplier :=
        c.retryDelayMultiplier.getD DEFAULT_RETRY_CONFIG.retryDelayMultiplier }

/-- Observable trace of one `withRetry` run: the settled result, the number
of times the operation was invoked, and the backoff delays slept (in
order) between attempts. -/
structure RetryTrace (E A : Type) where
  result : Except E A
  attempts : Nat
  delays : List Nat
  deriving Repr

/-- The retry loop of `withRetry` (`retry.ts` lines 29-42). The operation
is modelled as a function from the attempt number to that attempt's
outcome. `remaining` is `maxRetries - attempt`, so the loop guard
`attempt === maxRetries` is the `remaining = 0` case; the recursion
structure is otherwise a direct transcription of the `for` loop. -/
def retryGo (op : Nat → Except E A) (mult : Nat) :
    Nat → Nat → Nat → RetryTrace E A
  | remaining, attempt, delay =>
    match op attempt with
    | .ok a => ⟨.ok a, attempt + 1, []⟩
    | .error e =>
      match remaining with
      | 0 => ⟨.error e, attempt + 1, []⟩
      | r + 1 =>
        let t := retryGo op mult r (attempt + 1) (delay * mult)
        ⟨t.result, t.attempts, delay :: t.delays⟩

/-- Embedding of `withRetry` (`retry.ts` lines 21-45): the loop starts at
attempt 0 with the merged config's `retryDelay` as the current delay. -/
def withRetry (op : Nat → Except E A) (config : Option RetryConfig) :
    RetryTrace E A :=
  retryGo op (mergeRetryConfig config).retryDelayMultiplier
    (mergeRetryConfig config).maxRetries 0 (mergeRetryConfig config).retryDelay

theorem retryGo_attempts_le (op : Nat → Except E A) (mult : Nat) :
    ∀ remaining attempt delay,
      (retryGo op mult remaining attempt delay).attempts ≤ attempt + remaining + 1 := by
  intro remaining
  induction remaining with
  | zero =>
    intro attempt delay
    unfold retryGo
    cases op attempt <;> simp
  | succ r ih =>
    intro attempt delay
    unfold retryGo
    cases op attempt with
    | ok a => simp
    | error e =>
      simp only
      have := ih (attempt + 1) (delay * mult)
      omega

theorem retryGo_attempts_pos (op : Nat → Except E A) (mult : Nat) :
    ∀ remaining attempt delay,
      attempt + 1 ≤ (retryGo op mult remaining attempt delay).attempts := by
  intro remaining
  induction remaining with
  | zero =>
    intro attempt delay
    unfold retryGo
    cases op attempt <;> simp
  | succ r ih =>
    intro attempt delay
    unfold retryGo
    cases op attempt with
    | ok a => simp
    | error e =>
      simp only
      have := ih (attempt + 1) (delay * mult)
      omega

theorem retryGo_result_eq (op : Nat → Except E A) (mult : Nat) :
    ∀ remaining attempt delay,
      (retryGo op mult remaining attempt delay).result =
        op ((retryGo op mult remaining attempt delay).attempts - 1) := by
  intro remaining
  induction remaining with
  | zero =>
    intro attempt delay
    unfold retryGo
    cases h : op attempt <;> simp [h]
  | succ r ih =>
    intro attempt delay
    unfold retryGo
    cases h : op attempt with
    | ok a => simp [h]
    | error e =>
      simp only
      exact ih (attempt + 1) (delay * mult)

theorem retryGo_earlier_fail (op : Nat → Except E A) (mult : Nat) :
    ∀ remaining attempt delay i,
      attempt ≤ i → i + 1 < (retryGo op mult remaining attempt delay).attempts →
        ∃ e, op i = .error e := by
  intro remaining
  induction remaining with
  | zero =>
    intro attempt delay i hai hlt
    unfold retryGo at hlt
    cases h : op attempt <;> simp [h] at hlt <;> omega
  | succ r ih =>
    intro attempt delay i hai hlt
    unfold retryGo at hlt
    cases h : op attempt with
    | ok a => simp [h] at hlt; omega
    | error e =>
      simp only [h] at hlt
      rcases Nat.eq_or_lt_of_le hai with heq | hlt2
      · exact ⟨e, heq ▸ h⟩
      · exact ih (attempt + 1) (delay * mult) i hlt2 hlt

theorem retryGo_error_exhausts (op : Nat → Except E A) (mult : Nat) :
    ∀ remaining attempt delay e,
      (retryGo op mult remaining attempt delay).result = .error e →
        (retryGo op mult remaining attempt delay).attempts = attempt + remaining + 1 := by
  intro remaining
  induction remaining with
  | zero =>
    intro attempt delay e hres
    unfold retryGo at hres ⊢
    cases h : op attempt <;> simp [h] at hres ⊢
  | succ r ih =>
    intro attempt delay e hres
    unfold retryGo at hres ⊢
    cases h : op attempt with
    | ok a => simp [h] at hres
    | error e2 =>
      simp only [h] at hres ⊢
      have := ih (attempt + 1) (delay * mult) e hres
      omega

theorem retryGo_delays (op : Nat → Except E A) (mult : Nat) :
    ∀ remaining attempt delay,
      (retryGo op mult remaining attempt delay).delays =
        (List.range ((retryGo op mult remaining attempt delay).attempts - 1 - attempt)).map
          (fun i => delay * mult ^ i) := by
  intro remaining
  induction remaining with
  | zero =>
    intro attempt delay
    unfold retryGo
    cases h : op attempt <;> simp [h]
  | succ r ih =>
    intro attempt delay
    unfold retryGo
    cases h : op attempt with
    | ok a => simp [h]
    | error e =>
      simp only [h]
      have hpos := retryGo_attempts_pos op mult r (attempt + 1) (delay * mult)
      have hd := ih (attempt + 1) (delay * mult)
      have hn : (retryGo op mult r (attempt + 1) (delay * mult)).attempts - 1 - attempt =
          ((retryGo op mult r (attempt + 1) (delay * mult)).attempts - 1 - (attempt + 1)) + 1 := by
        omega
      rw [hd, hn, List.range_succ_eq_map]
      simp only [List.map_cons, List.map_map, pow_zero, Nat.mul_one, List.cons.injEq]
      refine ⟨by trivial, ?_⟩
      apply List.map_congr_left
      intro a _
      simp [pow_succ, Function.comp]
      ring

theorem retryGo_pattern_attempts (op op2 : Nat → Except E A) (mult mult2 : Nat)
    (hsame : ∀ i, (op i).isOk = (op2 i).isOk) :
    ∀ remaining attempt delay delay2,
      (retryGo op mult remaining attempt delay).attempts =
        (retryGo op2 mult2 remaining attempt delay2).attempts := by
  intro remaining
  induction remaining with
  | zero =>
    intro attempt delay delay2
    unfold retryGo
    have := hsame attempt
    cases h : op attempt <;> cases h2 : op2 attempt <;>
      simp [h, h2, Except.isOk, Except.toBool] at this ⊢
  | succ r ih =>
    intro attempt delay delay2
    unfold retryGo
    have := hsame attempt
    cases h : op attempt <;> cases h2 : op2 attempt <;>
      simp [h, h2, Except.isOk, Except.toBool] at this ⊢
    exact ih (attempt + 1) (delay * mult) (delay2 * mult2)

/-- Claim C6: `withRetry` invokes the operation at most `maxRetries + 1`
times and its settled result is the outcome of the last attempt made
(hence the first success, since every earlier attempt failed); when the
result is a failure all `maxRetries + 1` attempts were made and the error
is the last attempt's; the i-th retry (1-based) is preceded by a delay of
`retryDelay * retryDelayMultiplier ^ (i - 1)` (the spec's `initialDelayMs`
and `backoffMultiplier`); and the number of attempts is insensitive to
which failures occur — any operation with the same success/failure pattern
retries identically. -/
theorem withRetry_spec (op : Nat → Except E A) (config : Option RetryConfig) :
    (withRetry op config).attempts ≤ (mergeRetryConfig config).maxRetries + 1 ∧
    1 ≤ (withRetry op config).attempts ∧
    (withRetry op config).result = op ((withRetry op config).attempts - 1) ∧
    (∀ i, i + 1 < (withRetry op config).attempts → ∃ e, op i = .error e) ∧
    (∀ e, (withRetry op config).result = .error e →
      (withRetry op config).attempts = (mergeRetryConfig config).maxRetries + 1) ∧
    (withRetry op config).delays =
      (List.range ((withRetry op config).attempts - 1)).map
        (fun i => (mergeRetryConfig config).retryDelay *
          (mergeRetryConfig config).retryDelayMultiplier ^ i) ∧
    (∀ op2 : Nat → Except E A, (∀ i, (op i).isOk = (op2 i).isOk) →
      (withRetry op2 config).attempts = (withRetry op config).attempts) := by
  unfold withRetry
  refine ⟨?_, ?_, ?_, ?_, ?_, ?_, ?_⟩
  · have := retryGo_attempts_le op (mergeRetryConfig config).retryDelayMultiplier
      (mergeRetryConfig config).maxRetries 0 (mergeRetryConfig config).retryDelay
    omega
  · have := retryGo_attempts_pos op (mergeRetryConfig config).retryDelayMultiplier
      (mergeRetryConfig config).maxRetries 0 (mergeRetryConfig config).retryDelay
    omega
  · exact retryGo_result_eq op _ _ _ _
  · intro i hi
    exact retryGo_earlier_fail op _ _ _ _ i (Nat.zero_le i) hi
  · intro e he
    have := retryGo_error_exhausts op (mergeRetryConfig config).retryDelayMultiplier
      (mergeRetryConfig config).maxRetries 0 (mergeRetryConfig config).retryDelay e he
    omega
  · have := retryGo_delays op (mergeRetryConfig config).retryDelayMultiplier
      (mergeRetryConfig config).maxRetries 0 (mergeRetryConfig config).retryDelay
    simpa using this
  · intro op2 hsame
    exact retryGo_pattern_attempts op2 op _ _ (fun i => (hsame i).symm) _ 0 _ _

/-! Chunk strategy claims. -/

/-- Counterexample to claim C3 as stated: with the hint `maxWorkers = 0`
given, the claim's cap would be 0 and the small-file worker count
`min 2 0 = 0`, but the source computes `maxWorkers || defaultMaxWorkers`,
so a zero hint falls back to the default and the worker count is 2. -/
theorem calculateChunkStrategy_zero_hint_counterexample :
    (calculateChunkStrategy (5 * MiB) (some 0) (some 8)).workerCount = 2 ∧
      (2 : Nat) ≠ min 2 0 := by
  constructor
  · rfl
  · decide

/-- Claim C3 (amended): `calculateChunkStrategy` is a total function of the
file size realising the tier table — chunk sizes 1/5/10/20 MiB with worker
counts `min 2 cap` / `min 4 cap` / `min 6 cap` / `cap` on the tiers
`[0,10)` / `[10,100)` / `[100,1024)` / `[1024,∞)` MiB — where the cap is
the `maxWorkers` hint when given and nonzero, else the reported hardware
concurrency when reported and nonzero, else 4 (`effectiveCap`). -/
theorem calculateChunkStrategy_tiers (s : Nat) (mw hc : Option Nat) :
    (s < 10 * MiB →
      calculateChunkStrategy s mw hc =
        { chunkSize := 1 * MiB, workerCount := min 2 (effectiveCap mw hc) }) ∧
    (10 * MiB ≤ s → s < 100 * MiB →
      calculateChunkStrategy s mw hc =
        { chunkSize := 5 * MiB, workerCount := min 4 (effectiveCap mw hc) }) ∧
    (100 * MiB ≤ s → s < 1024 * MiB →
      calculateChunkStrategy s mw hc =
        { chunkSize := 10 * MiB, workerCount := min 6 (effectiveCap mw hc) }) ∧
    (1024 * MiB ≤ s →
      calculateChunkStrategy s mw hc =
        { chunkSize := 20 * MiB, workerCount := effectiveCap mw hc }) := by
  rw [effectiveCap_eq_jsOr]
  unfold calculateChunkStrategy
  refine ⟨fun h1 => ?_, fun h1 h2 => ?_, fun h1 h2 => ?_, fun h1 => ?_⟩ <;>
    split_ifs <;> first | rfl | omega

/-- Witness for the tier theorem at a concrete input in the first tier. -/
theorem calculateChunkStrategy_tiers_witness :
    5 * MiB < 10 * MiB ∧
      calculateChunkStrategy (5 * MiB) (some 8) (some 4) =
        { chunkSize := 1 * MiB, workerCount := min 2 (effectiveCap (some 8) (some 4)) } :=
  ⟨by decide, (calculateChunkStrategy_tiers (5 * MiB) (some 8) (some 4)).1 (by decide)⟩

/-! The synchronous opening section of `chunkFile` (`chunkFile.ts`), up to
and including the resolution of chunk size, worker count and chunk count.
Everything after these checks submits tasks to the worker pool. -/

/-- How a `chunkFile` call leaves its synchronous opening section:
immediate rejection with an invalid-file error, immediate resolution with
the empty chunk array (no task is ever submitted in this case), immediate
rejection because the token was already cancelled, or proceeding to task
submission with the final chunk size, worker count and chunk count. -/
inductive ChunkFileInit where
  | rejectedInvalidFile (err : UploadError)
  | resolvedEmpty
  | rejectedCancelled
  | proceed (finalChunkSize finalWorkerCount finalChunkCount : Nat)
  deriving Repr, DecidableEq

/-- Embedding of `chunkFile.ts` lines 39-99: the file-object check, the
zero-chunk early resolve, the cancellation check, and the chunk-size /
worker-count strategy resolution, in source order. `isFileInstance` models
the `file instanceof File` test and `cancelled` the token state at entry. -/
def chunkFileStart (file : MFile) (isFileInstance : Bool) (chunkSize : Option Nat)
    (workerCount : Option Nat) (adaptiveChunkSize : Bool) (cancelled : Bool)
    (hardwareConcurrency : Option Nat) : ChunkFileInit :=
  if !isFileInstance then
    .rejectedInvalidFile
      { type := .INVALID_FILE, message := "invalid file object",
        file := some file, chunkIndex := none }
  else
    let initialChunkSize := jsOr chunkSize (5 * MiB)
    let chunkCount := ceilDiv file.size initialChunkSize
    if chunkCount = 0 then .resolvedEmpty
    else if cancelled then .rejectedCancelled
    else if adaptiveChunkSize && chunkSize.isNone then
      let strategy := calculateChunkStrategy file.size workerCount hardwareConcurrency
      .proceed strategy.chunkSize strategy.workerCount
        (ceilDiv file.size strategy.chunkSize)
    else
      let finalChunkSize := jsOr chunkSize (5 * MiB)
      let finalWorkerCount :=
        match workerCount with
        | some w => w
        | none => calculateWorkerCount chunkCount none hardwareConcurrency
      .proceed finalChunkSize finalWorkerCount (ceilDiv file.size finalChunkSize)

theorem jsOr_pos (v : Option Nat) (d : Nat) (hd : 1 ≤ d) : 1 ≤ jsOr v d := by
  cases v with
  | none => exact hd
  | some n =>
    by_cases h : n = 0 <;> simp [jsOr, h] <;> omega

theorem ceilDiv_zero_left (b : Nat) : ceilDiv 0 b = 0 := by
  unfold ceilDiv
  cases b with
  | zero => rfl
  | succ k => simp [Nat.div_eq_of_lt]

/-- Claim C10: for a zero-byte file the zero-chunk check of `chunkFile`
precedes the cancellation check, so even with the token already cancelled
at the time of the call the opening section resolves with the empty chunk
array — no cancellation failure is raised and no task is submitted. -/
theorem chunkFileStart_empty_file_beats_cancel (file : MFile) (chunkSize : Option Nat)
    (workerCount : Option Nat) (adaptiveChunkSize : Bool) (hc : Option Nat)
    (hsize : file.size = 0) :
    chunkFileStart file true chunkSize workerCount adaptiveChunkSize true hc =
      .resolvedEmpty := by
  unfold chunkFileStart
  simp only [Bool.not_true, Bool.false_eq_true, if_false]
  rw [hsize, ceilDiv_zero_left]
  simp

/-- Witness for claim C10 at a concrete zero-byte file. -/
theorem chunkFileStart_empty_file_beats_cancel_witness :
    (MFile.mk "empty.bin" "application/octet-stream" 0 0).size = 0 ∧
      chunkFileStart (MFile.mk "empty.bin" "application/octet-stream" 0 0)
        true none none true true none = .resolvedEmpty :=
  ⟨rfl, chunkFileStart_empty_file_beats_cancel _ none none true none rfl⟩

/-! File validator, from `utils/fileValidator.ts`. JS string primitives are
modelled on the character list underlying a `String`, matching the JS
semantics of `includes`, `split('/')[0]`, `startsWith` and `endsWith`. -/

def starChar : Char := '*'

def slashChar : Char := '/'

def slashStr : String := "/"

def emptyStr : String := ""

/-- JS `s.includes(c)` for a single character. -/
def jsIncludes (s : String) (c : Char) : Bool :=
  s.data.any (fun ch => ch == c)

/-- JS `s.split(sep)[0]`: the segment before the first separator (the
whole string when the separator does not occur). -/
def jsHeadSegment (s : String) (sep : Char) : String :=
  ⟨s.data.takeWhile (fun ch => ch != sep)⟩

/-- JS `s.startsWith(p)`. -/
def jsStartsWith (s p : String) : Bool :=
  s.data.take p.data.length == p.data

/-- One entry of `allowedTypes`/`blockedTypes` matched against a file's
MIME type, as the source does it (`fileValidator.ts` lines 24-30 and
43-49): an entry containing `*` anywhere matches when the file type starts
with the entry's segment before the first `/` followed by `/`; otherwise
the entry must equal the file type exactly. -/
def typeEntryMatches (entry fileType : String) : Bool :=
  if jsIncludes entry starChar then
    jsStartsWith fileType (jsHeadSegment entry slashChar ++ slashStr)
  else fileType == entry

/-- The matching rule exactly as claim C7 words it (for comparison with
the source rule): an entry matches when it equals the file's MIME type
exactly, or, when the entry ends in the two characters `/*`, when the file
type starts with the entry's segment before `/` followed by `/`. -/
def specTypeEntryMatches (entry fileType : String) : Bool :=
  fileType == entry ||
    ((entry.data.reverse.take 2 == [starChar, slashChar]) &&
      jsStartsWith fileType (jsHeadSegment entry slashChar ++ slashStr))

/-- Result type of the custom `validate` callback: `boolean | string`. -/
inductive VResult where
  | bool (b : Bool)
  | str (s : String)
  deriving Repr, DecidableEq

/-- Model of `FileValidationConfig` from `types.ts`. -/
structure FileValidationConfig where
  allowedTypes : Option (List String)
  blockedTypes : Option (List String)
  maxSize : Option Nat
  minSize : Option Nat
  validate : Option (MFile → VResult)

def allowedTypesMsg : String := "file type not allowed"

def blockedTypesMsg : String := "file type blocked"

def maxSizeMsg : String := "file size over limit"

def minSizeMsg : String := "file size under limit"

def customFailMsg : String := "file validation failed"

/-- An `invalid-file` failure carrying the offending file, as every
violation branch of `validateFile` constructs it. -/
def invalidFileErr (msg : String) (file : MFile) : UploadError :=
  { type := .INVALID_FILE, message := msg, file := some file, chunkIndex := none }

/-- The allow-list check (`fileValidator.ts` lines 23-39). -/
def checkAllowedTypes (config : FileValidationConfig) (file : MFile) :
    Option UploadError :=
  match config.allowedTypes with
  | none => none
  | some ts =>
    if 0 < ts.length && !(ts.any (fun t => typeEntryMatches t file.type)) then
      some (invalidFileErr allowedTypesMsg file)
    else none

/-- The block-list check (`fileValidator.ts` lines 42-58). -/
def checkBlockedTypes (config : FileValidationConfig) (file : MFile) :
    Option UploadError :=
  match config.blockedTypes with
  | none => none
  | some ts =>
    if 0 < ts.length && ts.any (fun t => typeEntryMatches t file.type) then
      some (invalidFileErr blockedTypesMsg file)
    else none

/-- The maximum-size check (`fileValidator.ts` lines 61-67): violation only
when strictly over the bound. -/
def checkMaxSize (config : FileValidationConfig) (file : MFile) :
    Option UploadError :=
  match config.maxSize with
  | none => none
  | some m => if m < file.size then some (invalidFileErr maxSizeMsg file) else none

/-- The minimum-size check (`fileValidator.ts` lines 69-75): violation only
when strictly under the bound. -/
def checkMinSize (config : FileValidationConfig) (file : MFile) :
    Option UploadError :=
  match config.minSize with
  | none => none
  | some m => if file.size < m then some (invalidFileErr minSizeMsg file) else none

/-- The message attached to a failed custom validation: the returned
string, or a fixed message when the callback returned `false`. -/
def customMessage : VResult → String
  | .str s => s
  | .bool _ => customFailMsg

/-- The custom-callback check (`fileValidator.ts` lines 78-87): anything
other than a literal `true` is a violation. -/
def checkCustom (config : FileValidationConfig) (file : MFile) :
    Option UploadError :=
  match config.validate with
  | none => none
  | some v =>
    match v file with
    | .bool true => none
    | r => some (invalidFileErr (customMessage r) file)

/-- Embedding of `validateFile` (`fileValidator.ts` lines 16-90): absent
config passes; otherwise the five checks run in source order and the first
violation is returned. -/
def validateFile (file : MFile) (config : Option FileValidationConfig) :
    Option UploadError :=
  match config with
  | none => none
  | some c =>
    match checkAllowedTypes c file with
    | some e => some e
    | none =>
      match checkBlockedTypes c file with
      | some e => some e
      | none =>
        match checkMaxSize c file with
        | some e => some e
        | none =>
          match checkMinSize c file with
          | some e => some e
          | none => checkCustom c file

/-! Claim C7: pass predicates in the claim's vocabulary, with the matching
rule amended to the source's contains-a-star rule. -/

/-- The allow-list passes: absent, empty, or some entry matches. -/
def allowedPass (c : FileValidationConfig) (f : MFile) : Bool :=
  match c.allowedTypes with
  | none => true
  | some ts => ts.isEmpty || ts.any (fun t => typeEntryMatches t f.type)

/-- The block-list passes: absent, empty, or no entry matches. -/
def blockedPass (c : FileValidationConfig) (f : MFile) : Bool :=
  match c.blockedTypes with
  | none => true
  | some ts => ts.isEmpty || !(ts.any (fun t => typeEntryMatches t f.type))

/-- The maximum-size bound passes, inclusively. -/
def maxPass (c : FileValidationConfig) (f : MFile) : Bool :=
  match c.maxSize with
  | none => true
  | some m => f.size ≤ m

/-- The minimum-size bound passes, inclusively. -/
def minPass (c : FileValidationConfig) (f : MFile) : Bool :=
  match c.minSize with
  | none => true
  | some m => m ≤ f.size

/-- The custom predicate passes: absent or returning the literal `true`. -/
def customPass (c : FileValidationConfig) (f : MFile) : Bool :=
  match c.validate with
  | none => true
  | some v => v f == .bool true

theorem checkAllowedTypes_none_iff (c : FileValidationConfig) (f : MFile) :
    checkAllowedTypes c f = none ↔ allowedPass c f = true := by
  unfold checkAllowedTypes allowedPass
  cases c.allowedTypes with
  | none => simp
  | some ts =>
    cases ts with
    | nil => simp
    | cons t rest => by_cases h : typeEntryMatches t f.type = true <;> simp [h]

theorem checkAllowedTypes_some_of (c : FileValidationConfig) (f : MFile)
    (h : allowedPass c f = false) :
    checkAllowedTypes c f = some (invalidFileErr allowedTypesMsg f) := by
  unfold checkAllowedTypes
  unfold allowedPass at h
  cases hts : c.allowedTypes with
  | none => rw [hts] at h; simp at h
  | some ts =>
    rw [hts] at h
    cases ts with
    | nil => simp at h
    | cons t rest => simp at h ⊢; simpa using h

theorem checkBlockedTypes_none_iff (c : FileValidationConfig) (f : MFile) :
    checkBlockedTypes c f = none ↔ blockedPass c f = true := by
  unfold checkBlockedTypes blockedPass
  cases c.blockedTypes with
  | none => simp
  | some ts =>
    cases ts with
    | nil => simp
    | cons t rest => by_cases h : typeEntryMatches t f.type = true <;> simp [h]

theorem checkBlockedTypes_some_of (c : FileValidationConfig) (f : MFile)
    (h : blockedPass c f = false) :
    checkBlockedTypes c f = some (invalidFileErr blockedTypesMsg f) := by
  unfold checkBlockedTypes
  unfold blockedPass at h
  cases hts : c.blockedTypes with
  | none => rw [hts] at h; simp at h
  | some ts =>
    rw [hts] at h
    cases ts with
    | nil => simp at h
    | cons t rest => simp at h ⊢; simpa using h

theorem checkMaxSize_none_iff (c : FileValidationConfig) (f : MFile) :
    checkMaxSize c f = none ↔ maxPass c f = true := by
  unfold checkMaxSize maxPass
  cases c.maxSize with
  | none => simp
  | some m => by_cases h : m < f.size <;> simp [h] <;> omega

theorem checkMaxSize_some_of (c : FileValidationConfig) (f : MFile)
    (h : maxPass c f = false) :
    checkMaxSize c f = some (invalidFileErr maxSizeMsg f) := by
  unfold checkMaxSize
  unfold maxPass at h
  cases hts : c.maxSize with
  | none => rw [hts] at h; simp at h
  | some m =>
    rw [hts] at h
    simp only [decide_eq_false_iff_not, Nat.not_le] at h
    simp [h]

theorem checkMinSize_none_iff (c : FileValidationConfig) (f : MFile) :
    checkMinSize c f = none ↔ minPass c f = true := by
  unfold checkMinSize minPass
  cases c.minSize with
  | none => simp
  | some m => by_cases h : f.size < m <;> simp [h] <;> omega

theorem checkMinSize_some_of (c : FileValidationConfig) (f : MFile)
    (h : minPass c f = false) :
    checkMinSize c f = some (invalidFileErr minSizeMsg f) := by
  unfold checkMinSize
  unfold minPass at h
  cases hts : c.minSize with
  | none => rw [hts] at h; simp at h
  | some m =>
    rw [hts] at h
    simp only [decide_eq_false_iff_not, Nat.not_le] at h
    simp [h]

theorem checkCustom_none_iff (c : FileValidationConfig) (f : MFile) :
    checkCustom c f = none ↔ customPass c f = true := by
  unfold checkCustom customPass
  cases c.validate with
  | none => simp
  | some v =>
    cases h : v f with
    | bool b => cases b <;> simp [h]
    | str s => simp [h]

theorem checkCustom_some_of (c : FileValidationConfig) (f : MFile) (v : MFile → VResult)
    (hv : c.validate = some v) (h : v f ≠ .bool true) :
    checkCustom c f = some (invalidFileErr (customMessage (v f)) f) := by
  unfold checkCustom
  rw [hv]
  cases hr : v f with
  | bool b =>
    cases b with
    | false => simp [hr]
    | true => exact absurd hr h
  | str s => simp [hr]

def pngStarEntry : String := "image/png*"

def gifMime : String := "image/gif"

def gifFile : MFile :=
  { name := "a.gif", type := "image/gif", size := 1, lastModified := 0 }

def pngStarConfig : FileValidationConfig :=
  { allowedTypes := some [pngStarEntry], blockedTypes := none,
    maxSize := none, minSize := none, validate := none }

/-- Counterexample to claim C7 as stated: the claim's matching rule makes a
type entry match only by exact equality or, when the entry ends in the two
characters slash-star, by prefix. The source instead switches to prefix
matching whenever the entry contains a star anywhere. For the entry
`image/png*` and file type `image/gif` the claim's rule matches nothing —
so `validateFile` would have to return an invalid-file failure — yet the
source rule matches and the file passes with `none`. -/
theorem validateFile_wildcard_counterexample :
    typeEntryMatches pngStarEntry gifMime = true ∧
      specTypeEntryMatches pngStarEntry gifMime = false ∧
      validateFile gifFile (some pngStarConfig) = none := by
  refine ⟨by decide, by decide, by decide⟩

theorem checkAllowedTypes_shape (c : FileValidationConfig) (f : MFile)
    (e : UploadError) (h : checkAllowedTypes c f = some e) :
    e.type = ErrType.INVALID_FILE ∧ e.file = some f := by
  unfold checkAllowedTypes at h
  split at h
  · exact absurd h (by simp)
  · split at h
    · cases Option.some.inj h; exact ⟨rfl, rfl⟩
    · exact absurd h (by simp)

theorem checkBlockedTypes_shape (c : FileValidationConfig) (f : MFile)
    (e : UploadError) (h : checkBlockedTypes c f = some e) :
    e.type = ErrType.INVALID_FILE ∧ e.file = some f := by
  unfold checkBlockedTypes at h
  split at h
  · exact absurd h (by simp)
  · split at h
    · cases Option.some.inj h; exact ⟨rfl, rfl⟩
    · exact absurd h (by simp)

theorem checkMaxSize_shape (c : FileValidationConfig) (f : MFile)
    (e : UploadError) (h : checkMaxSize c f = some e) :
    e.type = ErrType.INVALID_FILE ∧ e.file = some f := by
  unfold checkMaxSize at h
  split at h
  · exact absurd h (by simp)
  · split at h
    · cases Option.some.inj h; exact ⟨rfl, rfl⟩
    · exact absurd h (by simp)

theorem checkMinSize_shape (c : FileValidationConfig) (f : MFile)
    (e : UploadError) (h : checkMinSize c f = some e) :
    e.type = ErrType.INVALID_FILE ∧ e.file = some f := by
  unfold checkMinSize at h
  split at h
  · exact absurd h (by simp)
  · split at h
    · cases Option.some.inj h; exact ⟨rfl, rfl⟩
    · exact absurd h (by simp)

theorem checkCustom_shape (c : FileValidationConfig) (f : MFile)
    (e : UploadError) (h : checkCustom c f = some e) :
    e.type = ErrType.INVALID_FILE ∧ e.file = some f := by
  unfold checkCustom at h
  split at h
  · exact absurd h (by simp)
  · split at h
    · exact absurd h (by simp)
    · cases Option.some.inj h; exact ⟨rfl, rfl⟩

theorem validateFile_some_eq (f : MFile) (c : FileValidationConfig) :
    validateFile f (some c) =
      match checkAllowedTypes c f with
      | some e => some e
      | none =>
        match checkBlockedTypes c f with
        | some e => some e
        | none =>
          match checkMaxSize c f with
          | some e => some e
          | none =>
            match checkMinSize c f with
            | some e => some e
            | none => checkCustom c f := rfl

/-- Claim C7 (amended): `validateFile` passes absent config; with a config
it evaluates allow-list, block-list, maxSize, minSize, then the custom
predicate in that order, returning for the first violated check an
invalid-file failure carrying the offending file; a list entry containing
a star anywhere matches when the file's type starts with the entry's
segment before the first slash followed by a slash, and an entry without a
star matches by exact equality (`typeEntryMatches`); sizes equal to
`maxSize`/`minSize` pass (violations are strict). -/
theorem validateFile_spec (f : MFile) (c : FileValidationConfig) :
    validateFile f none = none ∧
    (validateFile f (some c) = none ↔
      (allowedPass c f = true ∧ blockedPass c f = true ∧ maxPass c f = true ∧
        minPass c f = true ∧ customPass c f = true)) ∧
    (allowedPass c f = false →
      validateFile f (some c) = some (invalidFileErr allowedTypesMsg f)) ∧
    (allowedPass c f = true → blockedPass c f = false →
      validateFile f (some c) = some (invalidFileErr blockedTypesMsg f)) ∧
    (allowedPass c f = true → blockedPass c f = true → maxPass c f = false →
      validateFile f (some c) = some (invalidFileErr maxSizeMsg f)) ∧
    (allowedPass c f = true → blockedPass c f = true → maxPass c f = true →
      minPass c f = false →
      validateFile f (some c) = some (invalidFileErr minSizeMsg f)) ∧
    (∀ v, c.validate = some v → allowedPass c f = true → blockedPass c f = true →
      maxPass c f = true → minPass c f = true → v f ≠ .bool true →
      validateFile f (some c) = some (invalidFileErr (customMessage (v f)) f)) ∧
    (∀ err, validateFile f (some c) = some err →
      err.type = .INVALID_FILE ∧ err.file = some f) := by
  have hA := checkAllowedTypes_none_iff c f
  have hB := checkBlockedTypes_none_iff c f
  have hM := checkMaxSize_none_iff c f
  have hN := checkMinSize_none_iff c f
  have hC := checkCustom_none_iff c f
  refine ⟨rfl, ?_, ?_, ?_, ?_, ?_, ?_, ?_⟩
  · rw [validateFile_some_eq]
    constructor
    · intro h
      cases ha : checkAllowedTypes c f with
      | some e => rw [ha] at h; exact absurd h (by simp)
      | none =>
        rw [ha] at h
        cases hb : checkBlockedTypes c f with
        | some e => rw [hb] at h; exact absurd h (by simp)
        | none =>
          rw [hb] at h
          cases hm : checkMaxSize c f with
          | some e => rw [hm] at h; exact absurd h (by simp)
          | none =>
            rw [hm] at h
            cases hn : checkMinSize c f with
            | some e => rw [hn] at h; exact absurd h (by simp)
            | none =>
              rw [hn] at h
              exact ⟨hA.mp ha, hB.mp hb, hM.mp hm, hN.mp hn, hC.mp h⟩
    · rintro ⟨ha, hb, hm, hn, hc⟩
      rw [hA.mpr ha, hB.mpr hb, hM.mpr hm, hN.mpr hn, hC.mpr hc]
  · intro h
    rw [validateFile_some_eq]
    rw [checkAllowedTypes_some_of c f h]
  · intro ha h
    rw [validateFile_some_eq]
    rw [hA.mpr ha, checkBlockedTypes_some_of c f h]
  · intro ha hb h
    rw [validateFile_some_eq]
    rw [hA.mpr ha, hB.mpr hb, checkMaxSize_some_of c f h]
  · intro ha hb hm h
    rw [validateFile_some_eq]
    rw [hA.mpr ha, hB.mpr hb, hM.mpr hm, checkMinSize_some_of c f h]
  · intro v hv ha hb hm hn h
    rw [validateFile_some_eq]
    rw [hA.mpr ha, hB.mpr hb, hM.mpr hm, hN.mpr hn, checkCustom_some_of c f v hv h]
  · intro err herr
    rw [validateFile_some_eq] at herr
    split at herr
    · rename_i e heq
      cases Option.some.inj herr
      exact checkAllowedTypes_shape c f err heq
    · split at herr
      · rename_i e heq
        cases Option.some.inj herr
        exact checkBlockedTypes_shape c f err heq
      · split at herr
        · rename_i e heq
          cases Option.some.inj herr
          exact checkMaxSize_shape c f err heq
        · split at herr
          · rename_i e heq
            cases Option.some.inj herr
            exact checkMinSize_shape c f err heq
          · exact checkCustom_shape c f err herr

def textPlainEntry : String := "text/plain"

def textOnlyConfig : FileValidationConfig :=
  { allowedTypes := some [textPlainEntry], blockedTypes := none,
    maxSize := none, minSize := none, validate := none }

/-- Witness for the amended validator theorem: a `text/plain`-only
allow-list rejects an `image/gif` file with the allow-list failure. -/
theorem validateFile_spec_witness :
    allowedPass textOnlyConfig gifFile = false ∧
      validateFile gifFile (some textOnlyConfig) =
        some (invalidFileErr allowedTypesMsg gifFile) :=
  ⟨by decide, (validateFile_spec gifFile textOnlyConfig).2.2.1 (by decide)⟩

/-! Chunk builder and its hash memo, from `createChunk.ts`. A JS
`Map<ArrayBuffer, string>` keys entries by the ArrayBuffer object's
reference identity, not by its byte content; the model therefore carries
an object identity alongside the bytes, and every `FileReader` read in the
source produces a fresh ArrayBuffer identity. -/

/-- A JS `ArrayBuffer`: reference identity plus byte content. -/
structure ABuffer where
  id : Nat
  content : List Nat
  deriving Repr, DecidableEq

def MAX_CACHE_SIZE : Nat := 100

/-- JS `map.has(buffer)` on the identity-keyed memo. -/
def mapHas (m : List (Nat × String)) (k : Nat) : Bool :=
  m.any (fun e => e.1 == k)

/-- JS `map.get(buffer)` on the identity-keyed memo. -/
def mapGet (m : List (Nat × String)) (k : Nat) : Option String :=
  (m.find? (fun e => e.1 == k)).map (fun e => e.2)

/-- JS `map.set(buffer, hash)`: overwrite in place when present, else
append (JS `Map` preserves insertion order). -/
def mapSet (m : List (Nat × String)) (k : Nat) (v : String) :
    List (Nat × String) :=
  if mapHas m k then m.map (fun e => if e.1 == k then (k, v) else e)
  else m ++ [(k, v)]

/-- The `cleanupCache` eviction (`createChunk.ts` lines 13-24): while over
capacity, delete entries in insertion order. -/
def cleanupCache (m : List (Nat × String)) : List (Nat × String) :=
  if MAX_CACHE_SIZE < m.length then m.drop (m.length - MAX_CACHE_SIZE) else m

/-- JS `file.slice(start, stop)` read into bytes. -/
def sliceContent (bytes : List Nat) (start stop : Nat) : List Nat :=
  (bytes.drop start).take (stop - start)

/-- Observable outcome of one `createChunk` call: the resolved chunk, the
memo afterwards, and whether the memo lookup hit. -/
structure CreateChunkResult where
  chunk : ChunkInfo
  cache : List (Nat × String)
  cacheHit : Bool
  deriving Repr, DecidableEq

/-- Embedding of the success path of `createChunk` (`createChunk.ts` lines
38-99): compute bounds, read the slice into a fresh buffer (`bufId` is the
fresh ArrayBuffer identity produced by the `FileReader`), consult the memo
by buffer identity, compute and memoise the digest on a miss. `hashFn`
abstracts the deterministic `calculateHash` digest primitive. -/
def createChunk (hashFn : List Nat → String) (file : MFile) (fileBytes : List Nat)
    (index chunkSize : Nat) (bufId : Nat) (cache : List (Nat × String)) :
    CreateChunkResult :=
  let start := index * chunkSize
  let stop := min (start + chunkSize) file.size
  let fileBuffer : ABuffer := { id := bufId, content := sliceContent fileBytes start stop }
  if mapHas cache fileBuffer.id then
    { chunk := { start := start, stop := stop, index := index,
                 hash := (mapGet cache fileBuffer.id).getD emptyStr },
      cache := cache, cacheHit := true }
  else
    { chunk := { start := start, stop := stop, index := index,
                 hash := hashFn fileBuffer.content },
      cache := cleanupCache (mapSet cache fileBuffer.id (hashFn fileBuffer.content)),
      cacheHit := false }

def hashFn0 : List Nat → String := fun l => String.mk (List.replicate l.length starChar)

def file0 : MFile :=
  { name := "a.bin", type := "application/octet-stream", size := 4, lastModified := 0 }

def bytes0 : List Nat := [1, 2, 3, 4]

/-- First `createChunk` call of the C5 scenario: fresh buffer identity 0,
empty memo. -/
def c5run1 : CreateChunkResult := createChunk hashFn0 file0 bytes0 0 4 0 []

/-- Second `createChunk` call of the C5 scenario: identical byte range and
content, fresh buffer identity 1, memo left by the first call. -/
def c5run2 : CreateChunkResult := createChunk hashFn0 file0 bytes0 0 4 1 c5run1.cache

/-- Counterexample to claim C5 as stated: the memo is keyed by ArrayBuffer
object identity, and each read yields a fresh buffer, so the second of two
calls reading identical content does not hit the memo — it recomputes the
digest (the claim asserts the second lookup hits and reuses the first
digest). The two hash strings are nevertheless equal. -/
theorem createChunk_identity_key_counterexample :
    c5run2.cacheHit = false ∧ c5run1.cacheHit = false ∧
      c5run2.chunk.hash = c5run1.chunk.hash ∧
      c5run2.cache.length = 2 := by
  refine ⟨by decide, by decide, by decide, by decide⟩

/-- Claim C5 (amended): the memo is keyed by buffer object identity, so two
`createChunk` calls whose reads carry fresh identities both miss the memo
even when the byte content is identical — each computes the digest — and
the two calls yield the same hash string because the digest function is a
deterministic function of the content. -/
theorem createChunk_content_hash_deterministic (hashFn : List Nat → String)
    (f1 f2 : MFile) (bytes1 bytes2 : List Nat) (i1 i2 c1 c2 id1 id2 : Nat)
    (cache1 cache2 : List (Nat × String))
    (h1 : mapHas cache1 id1 = false) (h2 : mapHas cache2 id2 = false)
    (hcontent : sliceContent bytes1 (i1 * c1) (min (i1 * c1 + c1) f1.size) =
      sliceContent bytes2 (i2 * c2) (min (i2 * c2 + c2) f2.size)) :
    (createChunk hashFn f1 bytes1 i1 c1 id1 cache1).cacheHit = false ∧
      (createChunk hashFn f2 bytes2 i2 c2 id2 cache2).cacheHit = false ∧
      (createChunk hashFn f1 bytes1 i1 c1 id1 cache1).chunk.hash =
        (createChunk hashFn f2 bytes2 i2 c2 id2 cache2).chunk.hash := by
  unfold createChunk
  simp only [h1, h2, Bool.false_eq_true, if_false]
  exact ⟨trivial, trivial, by rw [hcontent]⟩

/-- Witness for the amended C5 theorem at the concrete scenario inputs. -/
theorem createChunk_content_hash_deterministic_witness :
    mapHas [] (0 : Nat) = false ∧ mapHas c5run1.cache 1 = false ∧
      sliceContent bytes0 (0 * 4) (min (0 * 4 + 4) file0.size) =
        sliceContent bytes0 (0 * 4) (min (0 * 4 + 4) file0.size) ∧
      (createChunk hashFn0 file0 bytes0 0 4 0 []).cacheHit = false ∧
      (createChunk hashFn0 file0 bytes0 0 4 1 c5run1.cache).cacheHit = false ∧
      (createChunk hashFn0 file0 bytes0 0 4 0 []).chunk.hash =
        (createChunk hashFn0 file0 bytes0 0 4 1 c5run1.cache).chunk.hash := by
  refine ⟨by decide, by decide, rfl, ?_⟩
  exact createChunk_content_hash_deterministic hashFn0 file0 file0 bytes0 bytes0
    0 0 4 4 0 1 [] c5run1.cache (by decide) (by decide) rfl

def retryFailMsg : String := "first attempt failed"

/-- Operation for the retry witness: fails on attempt 0, succeeds after. -/
def retryOpW : Nat → Except String Nat :=
  fun n => if n == 0 then .error retryFailMsg else .ok 7

/-- Witness for the retry theorem: under the default config the witness
operation is attempted twice, so attempt 0 (a non-final attempt) failed. -/
theorem withRetry_spec_witness :
    0 + 1 < (withRetry retryOpW none).attempts ∧ ∃ e, retryOpW 0 = .error e :=
  ⟨by decide, (withRetry_spec retryOpW none).2.2.2.1 0 (by decide)⟩

/-! Chunk pipeline: the full-file chunk sequence assembled the way
`chunkFile.ts` (range partition, lines 144-156) and `work.ts` (per-range
loop, lines 78-80) produce it. -/

/-- The chunk descriptor `createChunk` resolves on a memo miss: bounds from
`createChunk.ts` lines 39-40, digest of the bytes read. -/
def chunkDescOf (hashFn : List Nat → String) (file : MFile) (fileBytes : List Nat)
    (index chunkSize : Nat) : ChunkInfo :=
  { start := index * chunkSize
    stop := min (index * chunkSize + chunkSize) file.size
    index := index
    hash := hashFn (sliceContent fileBytes (index * chunkSize)
      (min (index * chunkSize + chunkSize) file.size)) }

theorem createChunk_fresh_chunk (hashFn : List Nat → String) (file : MFile)
    (fileBytes : List Nat) (index chunkSize bufId : Nat)
    (cache : List (Nat × String)) (hfresh : mapHas cache bufId = false) :
    (createChunk hashFn file fileBytes index chunkSize bufId cache).chunk =
      chunkDescOf hashFn file fileBytes index chunkSize := by
  unfold createChunk chunkDescOf
  simp [hfresh]

/-- The ordered chunk array one worker task resolves with (`work.ts` lines
75-87): one `createChunk` per index of `[startIndex, endIndex)`, gathered
by `Promise.all` in index order. -/
def workerChunks (hashFn : List Nat → String) (file : MFile) (fileBytes : List Nat)
    (chunkSize startIndex endIndex : Nat) : List ChunkInfo :=
  (List.range' startIndex (endIndex - startIndex)).map
    (fun i => chunkDescOf hashFn file fileBytes i chunkSize)

/-- The non-empty `[startIndex, endIndex)` ranges the `chunkFile` loop
(`chunkFile.ts` lines 144-156) submits: the i-th candidate range starts at
`i * workerChunkCount`, is clipped to `finalChunkCount`, and is skipped
when empty. -/
def workerTaskRanges (finalChunkCount workerChunkCount finalWorkerCount : Nat) :
    List (Nat × Nat) :=
  (List.range finalWorkerCount).filterMap (fun i =>
    let startIndex := i * workerChunkCount
    let endIndex := min (startIndex + workerChunkCount) finalChunkCount
    if startIndex < endIndex then some (startIndex, endIndex) else none)

/-- The per-task result arrays of one `chunkFile` run, in submission order
(which `Promise.all` preserves regardless of completion order). -/
def taskResults (hashFn : List Nat → String) (file : MFile) (fileBytes : List Nat)
    (chunkSize workerCount : Nat) : List (List ChunkInfo) :=
  (workerTaskRanges (ceilDiv file.size chunkSize)
      (ceilDiv (ceilDiv file.size chunkSize) workerCount) workerCount).map
    (fun r => workerChunks hashFn file fileBytes chunkSize r.1 r.2)

/-- The chunk sequence produced for a file: all task results concatenated
in submission order. -/
def chunkSequence (hashFn : List Nat → String) (file : MFile) (fileBytes : List Nat)
    (chunkSize workerCount : Nat) : List ChunkInfo :=
  (taskResults hashFn file fileBytes chunkSize workerCount).flatten

theorem lt_ceilDiv_iff (n k i : Nat) (hk : 1 ≤ k) : i < ceilDiv n k ↔ i * k < n := by
  unfold ceilDiv
  constructor
  · intro h
    have h2 : (i + 1) * k ≤ n + k - 1 := (Nat.le_div_iff_mul_le hk).mp h
    rw [Nat.add_mul, Nat.one_mul] at h2
    omega
  · intro h
    have h2 : (i + 1) * k ≤ n + k - 1 := by rw [Nat.add_mul, Nat.one_mul]; omega
    exact (Nat.le_div_iff_mul_le hk).mpr h2

theorem ceilDiv_mul_ge (n k : Nat) (hk : 1 ≤ k) : n ≤ ceilDiv n k * k := by
  by_contra hcon
  push_neg at hcon
  have := (lt_ceilDiv_iff n k (ceilDiv n k) hk).mpr hcon
  omega

theorem ceilDiv_pos (n k : Nat) (hn : 1 ≤ n) (hk : 1 ≤ k) : 1 ≤ ceilDiv n k := by
  by_contra hcon
  push_neg at hcon
  have h0 : ceilDiv n k = 0 := by omega
  have := ceilDiv_mul_ge n k hk
  rw [h0] at this
  omega

theorem range_filterMap_if {α : Type} (f : Nat → α) (t : Nat) :
    ∀ W, (List.range W).filterMap (fun i => if i < t then some (f i) else none) =
      (List.range (min t W)).map f := by
  intro W
  induction W with
  | zero => simp
  | succ W ih =>
    rw [List.range_succ, List.filterMap_append, ih]
    by_cases h : W < t
    · have hmin : min t (W + 1) = W + 1 := by omega
      have hmin2 : min t W = W := by omega
      rw [hmin, hmin2, List.range_succ]
      simp [h]
    · have hmin : min t (W + 1) = min t W := by omega
      rw [hmin]
      simp [h]

theorem workerTaskRanges_eq (n k W : Nat) (hk : 1 ≤ k) :
    workerTaskRanges n k W =
      (List.range (min (ceilDiv n k) W)).map
        (fun i => (i * k, min (i * k + k) n)) := by
  unfold workerTaskRanges
  have hcong : ∀ i ∈ List.range W,
      (if i * k < min (i * k + k) n then some (i * k, min (i * k + k) n) else none) =
        (if i < ceilDiv n k then some (i * k, min (i * k + k) n) else none) := by
    intro i _
    have hiff : i * k < min (i * k + k) n ↔ i < ceilDiv n k := by
      constructor
      · intro h
        exact (lt_ceilDiv_iff n k i hk).mpr (lt_of_lt_of_le h (min_le_right _ _))
      · intro h
        exact lt_min (by omega) ((lt_ceilDiv_iff n k i hk).mp h)
    exact if_congr hiff rfl rfl
  rw [List.filterMap_congr hcong, range_filterMap_if]

theorem flatten_range_blocks {α : Type} (g : Nat → α) (n k : Nat) (hk : 1 ≤ k) :
    ∀ t, t ≤ ceilDiv n k →
      ((List.range t).map
        (fun i => (List.range' (i * k) (min (i * k + k) n - i * k)).map g)).flatten =
        (List.range' 0 (min (t * k) n)).map g := by
  intro t
  induction t with
  | zero => simp
  | succ t ih =>
    intro ht
    rw [List.range_succ, List.map_append, List.flatten_append,
      ih (Nat.le_of_succ_le ht)]
    have htk : t * k < n := (lt_ceilDiv_iff n k t hk).mp (by omega)
    have hmin : min (t * k) n = t * k := by omega
    rw [hmin]
    simp only [List.map_cons, List.map_nil, List.flatten_cons, List.flatten_nil,
      List.append_nil]
    rw [← List.map_append]
    congr 1
    have happ := List.range'_append 0 (t * k) (min (t * k + k) n - t * k) 1
    simp only [Nat.one_mul, Nat.zero_add] at happ
    rw [happ]
    congr 1
    have h1 : t * k ≤ min (t * k + k) n := by
      have : t * k + 1 ≤ n := htk
      omega
    have h2 : (t + 1) * k = t * k + k := by rw [Nat.add_mul, Nat.one_mul]
    omega

/-- The whole-file normal form: for positive chunk size and worker count
the concatenated task results are exactly the chunk descriptors for
indices `0 .. ceilDiv size chunkSize - 1` in order. -/
theorem chunkSequence_eq (hashFn : List Nat → String) (file : MFile)
    (fileBytes : List Nat) (chunkSize workerCount : Nat)
    (hc : 1 ≤ chunkSize) (hw : 1 ≤ workerCount) :
    chunkSequence hashFn file fileBytes chunkSize workerCount =
      (List.range (ceilDiv file.size chunkSize)).map
        (fun i => chunkDescOf hashFn file fileBytes i chunkSize) := by
  unfold chunkSequence taskResults workerChunks
  by_cases hN : ceilDiv file.size chunkSize = 0
  · rw [hN]
    unfold workerTaskRanges
    simp
  · have hN1 : 1 ≤ ceilDiv file.size chunkSize := by omega
    set N := ceilDiv file.size chunkSize with hNdef
    set k := ceilDiv N workerCount with hkdef
    have hk : 1 ≤ k := ceilDiv_pos _ _ hN1 hw
    rw [workerTaskRanges_eq _ _ _ hk, List.map_map]
    show ((List.range (min (ceilDiv N k) workerCount)).map
        (fun i => (List.range' (i * k) (min (i * k + k) N - i * k)).map
          (fun j => chunkDescOf hashFn file fileBytes j chunkSize))).flatten = _
    rw [flatten_range_blocks (fun j => chunkDescOf hashFn file fileBytes j chunkSize)
      N k hk (min (ceilDiv N k) workerCount) (min_le_left _ _)]
    have hcover : N ≤ min (ceilDiv N k) workerCount * k := by
      rcases Nat.le_total (ceilDiv N k) workerCount with hle | hle
      · rw [min_eq_left hle]
        exact ceilDiv_mul_ge _ _ hk
      · rw [min_eq_right hle]
        calc N ≤ k * workerCount := by
              rw [hkdef]
              exact ceilDiv_mul_ge _ _ hw
          _ = workerCount * k := Nat.mul_comm _ _
    rw [min_eq_right hcover, ← List.range_eq_range']

theorem sum_range_map_sub_monotone (f : Nat → Nat) (hmono : Monotone f) :
    ∀ n, ((List.range n).map (fun i => f (i + 1) - f i)).sum = f n - f 0 := by
  intro n
  induction n with
  | zero => simp
  | succ n ih =>
    rw [List.range_succ, List.map_append, List.sum_append, ih]
    simp only [List.map_cons, List.map_nil, List.sum_cons, List.sum_nil]
    have h1 : f 0 ≤ f n := hmono (Nat.zero_le n)
    have h2 : f n ≤ f (n + 1) := hmono (Nat.le_succ n)
    omega

theorem chunk_sizes_sum (fileSize chunkSize : Nat) (hc : 1 ≤ chunkSize) :
    ((List.range (ceilDiv fileSize chunkSize)).map
      (fun i => min (i * chunkSize + chunkSize) fileSize - i * chunkSize)).sum =
      fileSize := by
  have hcong : ∀ i ∈ List.range (ceilDiv fileSize chunkSize),
      min (i * chunkSize + chunkSize) fileSize - i * chunkSize =
        (fun j => min (j * chunkSize) fileSize) (i + 1) -
          (fun j => min (j * chunkSize) fileSize) i := by
    intro i hi
    have hik : i * chunkSize < fileSize :=
      (lt_ceilDiv_iff fileSize chunkSize i hc).mp (List.mem_range.mp hi)
    simp only
    rw [min_eq_left (Nat.le_of_lt hik)]
    congr 2
    rw [Nat.add_mul, Nat.one_mul]
  rw [List.map_congr_left hcong]
  have hmono : Monotone (fun j => min (j * chunkSize) fileSize) := by
    intro a b hab
    exact min_le_min (Nat.mul_le_mul_right _ hab) (Nat.le_refl _)
  have htel := sum_range_map_sub_monotone (fun j => min (j * chunkSize) fileSize)
    hmono (ceilDiv fileSize chunkSize)
  rw [htel]
  have hcov : fileSize ≤ ceilDiv fileSize chunkSize * chunkSize :=
    ceilDiv_mul_ge _ _ hc
  show min (ceilDiv fileSize chunkSize * chunkSize) fileSize - min (0 * chunkSize) fileSize = fileSize
  rw [min_eq_right hcov]
  simp

/-- Claim C1: for any file, positive chunk size and positive worker count,
the chunk sequence a `chunkFile` run produces has exactly
`N = ceil(size / chunkSize)` descriptors; their `index` fields are exactly
`0 .. N-1` in order; each descriptor has `start = index * chunkSize` and
`end = min(start + chunkSize, size)`; the starts are strictly increasing;
and the chunk lengths sum to the file size. -/
theorem chunkFile_partition_spec (hashFn : List Nat → String) (file : MFile)
    (fileBytes : List Nat) (chunkSize workerCount : Nat)
    (hc : 1 ≤ chunkSize) (hw : 1 ≤ workerCount) :
    (chunkSequence hashFn file fileBytes chunkSize workerCount).length =
        ceilDiv file.size chunkSize ∧
    (chunkSequence hashFn file fileBytes chunkSize workerCount).map
        (fun ch => ch.index) = List.range (ceilDiv file.size chunkSize) ∧
    (∀ ch ∈ chunkSequence hashFn file fileBytes chunkSize workerCount,
      ch.start = ch.index * chunkSize ∧
        ch.stop = min (ch.index * chunkSize + chunkSize) file.size) ∧
    List.Pairwise (fun a b => a < b)
      ((chunkSequence hashFn file fileBytes chunkSize workerCount).map
        (fun ch => ch.start)) ∧
    ((chunkSequence hashFn file fileBytes chunkSize workerCount).map
        (fun ch => ch.stop - ch.start)).sum = file.size := by
  rw [chunkSequence_eq hashFn file fileBytes chunkSize workerCount hc hw]
  refine ⟨?_, ?_, ?_, ?_, ?_⟩
  · simp
  · rw [List.map_map]
    have : ((fun ch : ChunkInfo => ch.index) ∘
        (fun i => chunkDescOf hashFn file fileBytes i chunkSize)) = fun i => i := rfl
    rw [this]
    simp
  · intro ch hch
    rw [List.mem_map] at hch
    obtain ⟨i, _, rfl⟩ := hch
    exact ⟨rfl, rfl⟩
  · rw [List.map_map]
    have : ((fun ch : ChunkInfo => ch.start) ∘
        (fun i => chunkDescOf hashFn file fileBytes i chunkSize)) =
        fun i => i * chunkSize := rfl
    rw [this]
    exact (List.pairwise_lt_range _).map _
      (fun a b hab => (Nat.mul_lt_mul_right (by omega)).mpr hab)
  · rw [List.map_map]
    have : ((fun ch : ChunkInfo => ch.stop - ch.start) ∘
        (fun i => chunkDescOf hashFn file fileBytes i chunkSize)) =
        fun i => min (i * chunkSize + chunkSize) file.size - i * chunkSize := rfl
    rw [this]
    exact chunk_sizes_sum file.size chunkSize hc

def fileC1 : MFile :=
  { name := "f.bin", type := "application/octet-stream", size := 5, lastModified := 0 }

/-- Witness for claim C1: a 5-byte file with chunk size 2 and two workers
splits into chunks of lengths 2, 2, 1 summing to 5. -/
theorem chunkFile_partition_spec_witness :
    (1 ≤ 2 ∧ 1 ≤ 2) ∧
      ((chunkSequence hashFn0 fileC1 bytes0 2 2).map
        (fun ch => ch.stop - ch.start)).sum = fileC1.size :=
  ⟨⟨by decide, by decide⟩,
    (chunkFile_partition_spec hashFn0 fileC1 bytes0 2 2 (by decide) (by decide)).2.2.2.2⟩

/-! Claim C2: the merge of task results into the resolved array
(`chunkFile.ts` lines 245-257). Each task's chunks are written at
`result[taskIndex * workerChunkCount + chunkIndex]` — a position derived
from the task index and the chunk's position inside the task's array. -/

/-- The sequence of JS array writes `result[taskIndex * workerChunkCount +
chunkIndex] = chunk` performed by the merge loop, in execution order. -/
def assignmentsOf (chunksArrays : List (List ChunkInfo)) (workerChunkCount : Nat) :
    List (Nat × ChunkInfo) :=
  (chunksArrays.enum.map (fun ta =>
    ta.2.enum.map (fun ca => (ta.1 * workerChunkCount + ca.1, ca.2)))).flatten

/-- The content of one slot of the JS result array after all writes: the
last write to that position, if any. -/
def resolvedSlot (assignList : List (Nat × ChunkInfo)) (p : Nat) : Option ChunkInfo :=
  (assignList.reverse.find? (fun a => a.1 == p)).map (fun a => a.2)

/-- The resolved result array (`resolve(result)`): slots `0 .. N-1` of the
JS array after the merge writes. -/
def resolvedArray (chunksArrays : List (List ChunkInfo)) (workerChunkCount N : Nat) :
    List (Option ChunkInfo) :=
  (List.range N).map (resolvedSlot (assignmentsOf chunksArrays workerChunkCount))

def badChunk : ChunkInfo := { start := 0, stop := 1, index := 5, hash := "h" }

/-- Counterexample to claim C2 as stated: the merge places a chunk by its
position within the task's returned array, not by the chunk's own `index`
field. A task array whose single chunk carries index 5 is written to
position 0 (and nothing is written to position 5). -/
theorem mergeChunks_positional_counterexample :
    assignmentsOf [[badChunk]] 1 = [(0, badChunk)] ∧ badChunk.index = 5 ∧
      resolvedSlot (assignmentsOf [[badChunk]] 1) 0 = some badChunk ∧
      resolvedSlot (assignmentsOf [[badChunk]] 1) 5 = none := by
  refine ⟨by decide, by decide, by decide, by decide⟩

theorem enumFrom_map_range' {α : Type} (g : Nat → α) :
    ∀ m a j, List.enumFrom j ((List.range' a m).map g) =
      (List.range m).map (fun c => (j + c, g (a + c))) := by
  intro m
  induction m with
  | zero => intro a j; simp
  | succ m ih =>
    intro a j
    rw [List.range'_succ, List.map_cons, List.enumFrom_cons, ih (a + 1) (j + 1),
      List.range_succ_eq_map, List.map_cons, List.map_map]
    refine congrArg₂ _ (by simp) ?_
    apply List.map_congr_left
    intro c _
    have h1 : j + 1 + c = j + Nat.succ c := by omega
    have h2 : a + 1 + c = a + Nat.succ c := by omega
    simp only [Function.comp_apply, h1, h2, Nat.succ_eq_add_one]

theorem map_pair_range' (g : Nat → ChunkInfo) (a m : Nat) :
    (List.range' a m).map (fun j => (j, g j)) =
      (List.range m).map (fun d => (a + d, g (a + d))) := by
  rw [List.range'_eq_map_range, List.map_map]
  rfl

theorem workerTaskRanges_zero (k W : Nat) : workerTaskRanges 0 k W = [] := by
  unfold workerTaskRanges
  rw [List.filterMap_eq_nil_iff]
  intro i _
  simp

/-- The merge writes of an actual `chunkFile` run: every write targets the
slot equal to the written chunk's own `index` field, one write per index
of `0 .. N-1` in order. -/
theorem assignmentsOf_taskResults (hashFn : List Nat → String) (file : MFile)
    (fileBytes : List Nat) (chunkSize workerCount : Nat)
    (hc : 1 ≤ chunkSize) (hw : 1 ≤ workerCount) :
    assignmentsOf (taskResults hashFn file fileBytes chunkSize workerCount)
        (ceilDiv (ceilDiv file.size chunkSize) workerCount) =
      (List.range (ceilDiv file.size chunkSize)).map
        (fun j => (j, chunkDescOf hashFn file fileBytes j chunkSize)) := by
  unfold assignmentsOf taskResults workerChunks
  by_cases hN : ceilDiv file.size chunkSize = 0
  · rw [hN, workerTaskRanges_zero]
    simp
  · have hN1 : 1 ≤ ceilDiv file.size chunkSize := by omega
    set N := ceilDiv file.size chunkSize with hNdef
    set k := ceilDiv N workerCount with hkdef
    have hk : 1 ≤ k := ceilDiv_pos _ _ hN1 hw
    rw [workerTaskRanges_eq _ _ _ hk, List.map_map]
    set t := min (ceilDiv N k) workerCount with htdef
    set g := fun j => chunkDescOf hashFn file fileBytes j chunkSize with hgdef
    have harr : ((fun r : Nat × Nat => (List.range' r.1 (r.2 - r.1)).map g) ∘
        (fun i => (i * k, min (i * k + k) N))) =
        fun i => (List.range' (i * k) (min (i * k + k) N - i * k)).map g := rfl
    rw [harr]
    rw [show (List.range t) = List.range' 0 t from (List.range_eq_range' t)]
    rw [show (List.enum ((List.range' 0 t).map
        (fun i => (List.range' (i * k) (min (i * k + k) N - i * k)).map g))) =
      List.enumFrom 0 ((List.range' 0 t).map
        (fun i => (List.range' (i * k) (min (i * k + k) N - i * k)).map g)) from rfl]
    rw [enumFrom_map_range' _ t 0 0]
    rw [List.map_map]
    have hblock : ∀ c ∈ List.range t,
        ((fun ta : Nat × List ChunkInfo =>
            ta.2.enum.map (fun ca => (ta.1 * k + ca.1, ca.2))) ∘
          (fun c => (0 + c, (List.range' ((0 + c) * k)
            (min ((0 + c) * k + k) N - (0 + c) * k)).map g))) c =
        (List.range' (c * k) (min (c * k + k) N - c * k)).map (fun j => (j, g j)) := by
      intro c _
      simp only [Function.comp_apply, Nat.zero_add]
      rw [show (List.enum ((List.range' (c * k)
          (min (c * k + k) N - c * k)).map g)) =
        List.enumFrom 0 ((List.range' (c * k)
          (min (c * k + k) N - c * k)).map g) from rfl]
      rw [enumFrom_map_range' _ _ _ 0, List.map_map, map_pair_range']
      apply List.map_congr_left
      intro d _
      simp only [Function.comp_apply, Nat.zero_add]
    rw [List.map_congr_left hblock]
    rw [flatten_range_blocks (fun j => (j, g j)) N k hk t (min_le_left _ _)]
    have hcover : N ≤ t * k := by
      rw [htdef]
      rcases Nat.le_total (ceilDiv N k) workerCount with hle | hle
      · rw [min_eq_left hle]
        exact ceilDiv_mul_ge _ _ hk
      · rw [min_eq_right hle]
        calc N ≤ k * workerCount := by
              rw [hkdef]
              exact ceilDiv_mul_ge _ _ hw
          _ = workerCount * k := Nat.mul_comm _ _
    rw [min_eq_right hcover, ← List.range_eq_range']

theorem resolvedSlot_range (g : Nat → ChunkInfo) :
    ∀ N p, p < N →
      resolvedSlot ((List.range N).map (fun j => (j, g j))) p = some (g p) := by
  intro N
  induction N with
  | zero => intro p hp; omega
  | succ N ih =>
    intro p hp
    unfold resolvedSlot
    rw [List.range_succ, List.map_append, List.reverse_append]
    simp only [List.map_cons, List.map_nil, List.reverse_cons, List.reverse_nil,
      List.nil_append, List.cons_append, List.find?_cons]
    by_cases hpN : p = N
    · subst hpN
      simp
    · have hne : (N == p) = false := by
        simp [hpN]
        omega
      rw [hne]
      exact ih p (by omega)

/-- Claim C2 (amended): the merge places each chunk positionally — write
`taskIndex * workerChunkCount + positionInTaskArray` — not by reading the
chunk's `index` field; for the task arrays an actual run produces, that
position coincides with the chunk's own `index`, every slot `0 .. N-1` is
written exactly by its chunk, and the resolved array is the index-ascending
chunk sequence. Completion order cannot affect this: `Promise.all` hands
the merge the task arrays in submission order. -/
theorem mergeChunks_spec (hashFn : List Nat → String) (file : MFile)
    (fileBytes : List Nat) (chunkSize workerCount : Nat)
    (hc : 1 ≤ chunkSize) (hw : 1 ≤ workerCount) :
    (∀ pa ∈ assignmentsOf (taskResults hashFn file fileBytes chunkSize workerCount)
        (ceilDiv (ceilDiv file.size chunkSize) workerCount), pa.1 = pa.2.index) ∧
    resolvedArray (taskResults hashFn file fileBytes chunkSize workerCount)
        (ceilDiv (ceilDiv file.size chunkSize) workerCount)
        (ceilDiv file.size chunkSize) =
      (chunkSequence hashFn file fileBytes chunkSize workerCount).map some ∧
    (chunkSequence hashFn file fileBytes chunkSize workerCount).map
        (fun ch => ch.index) = List.range (ceilDiv file.size chunkSize) := by
  have hassign := assignmentsOf_taskResults hashFn file fileBytes chunkSize workerCount hc hw
  refine ⟨?_, ?_, ?_⟩
  · intro pa hpa
    rw [hassign] at hpa
    rw [List.mem_map] at hpa
    obtain ⟨j, _, rfl⟩ := hpa
    rfl
  · unfold resolvedArray
    rw [hassign, chunkSequence_eq hashFn file fileBytes chunkSize workerCount hc hw,
      List.map_map]
    apply List.map_congr_left
    intro p hp
    rw [resolvedSlot_range _ _ _ (List.mem_range.mp hp)]
    rfl
  · rw [chunkSequence_eq hashFn file fileBytes chunkSize workerCount hc hw,
      List.map_map]
    have hid : ((fun ch : ChunkInfo => ch.index) ∘
        (fun i => chunkDescOf hashFn file fileBytes i chunkSize)) = fun i => i := rfl
    rw [hid]
    simp

/-- Witness for the amended merge theorem at the 5-byte two-worker run. -/
theorem mergeChunks_spec_witness :
    (1 ≤ 2 ∧ 1 ≤ 2) ∧
      resolvedArray (taskResults hashFn0 fileC1 bytes0 2 2)
          (ceilDiv (ceilDiv fileC1.size 2) 2) (ceilDiv fileC1.size 2) =
        (chunkSequence hashFn0 fileC1 bytes0 2 2).map some :=
  ⟨⟨by decide, by decide⟩,
    (mergeChunks_spec hashFn0 fileC1 bytes0 2 2 (by decide) (by decide)).2.1⟩

/-! Claim C8: the per-file callback state of one `chunkFile` invocation.
The cancellation token is not cancelled during the run (the claim concerns
arbitrary interleavings of task completions and failures); each arriving
task outcome drives the `resolve`/`reject` callbacks registered at
submission (`chunkFile.ts` lines 174-225), and after all tasks settle the
`Promise.all` continuation runs (lines 235-276). Calls to the outer
promise's `resolve`/`reject` are counted as calls; JS promise semantics
make only the first effective. -/

/-- Mutable state of one `chunkFile` invocation plus counters for the
observable callback activity. -/
structure ChunkFileState where
  hasError : Bool
  finishCount : Nat
  processedBytes : Nat
  onErrorCalls : Nat
  rejectCalls : Nat
  resolveCalls : Nat
  progressEvents : List (Nat × Nat)
  deriving Repr, DecidableEq

def initChunkFileState : ChunkFileState :=
  { hasError := false, finishCount := 0, processedBytes := 0,
    onErrorCalls := 0, rejectCalls := 0, resolveCalls := 0, progressEvents := [] }

/-- Outcome of one submitted task, as delivered by the pool. -/
inductive TaskOutcome where
  | success (chunks : List ChunkInfo)
  | failure (msg : String)
  deriving Repr, DecidableEq

/-- The task `resolve` callback (`chunkFile.ts` lines 174-189): ignored
after a failure; otherwise accumulates bytes, bumps the finish counter and
emits a progress snapshot. -/
def onTaskResolve (s : ChunkFileState) (chunks : List ChunkInfo) : ChunkFileState :=
  if s.hasError then s
  else
    { s with
      processedBytes := s.processedBytes +
        (chunks.map (fun ch => ch.stop - ch.start)).sum
      finishCount := s.finishCount + 1
      progressEvents := s.progressEvents ++
        [(s.finishCount + 1,
          s.processedBytes + (chunks.map (fun ch => ch.stop - ch.start)).sum)] }

/-- The shared failure handler (`chunkFile.ts` lines 135-140): a guard
makes every call after the first a no-op; the first call invokes the error
callback once and rejects the returned promise. -/
def handleError (s : ChunkFileState) : ChunkFileState :=
  if s.hasError then s
  else
    { s with
      hasError := true
      onErrorCalls := s.onErrorCalls + 1
      rejectCalls := s.rejectCalls + 1 }

/-- The task `reject` callback (`chunkFile.ts` lines 191-225) under an
uncancelled token: builds the worker-error and hands it to `handleError`. -/
def onTaskReject (s : ChunkFileState) : ChunkFileState :=
  handleError s

def applyOutcome (s : ChunkFileState) (o : TaskOutcome) : ChunkFileState :=
  match o with
  | .success chunks => onTaskResolve s chunks
  | .failure _ => onTaskReject s

/-- All task outcomes arriving, in arbitrary arrival order. -/
def runTaskOutcomes (s : ChunkFileState) (outcomes : List TaskOutcome) :
    ChunkFileState :=
  outcomes.foldl applyOutcome s

def isSuccessOutcome : TaskOutcome → Bool
  | .success _ => true
  | .failure _ => false

/-- One complete `chunkFile` callback run: the task outcomes arrive, then
the `Promise.all` continuation fires — the then-branch when every task
succeeded (resolving unless a failure was recorded), the catch-branch
otherwise (which defers to `handleError` unless one already ran). -/
def chunkFileRun (outcomes : List TaskOutcome) : ChunkFileState :=
  if outcomes.all isSuccessOutcome then
    if (runTaskOutcomes initChunkFileState outcomes).hasError then
      runTaskOutcomes initChunkFileState outcomes
    else
      { runTaskOutcomes initChunkFileState outcomes with
        resolveCalls := (runTaskOutcomes initChunkFileState outcomes).resolveCalls + 1 }
  else
    if (runTaskOutcomes initChunkFileState outcomes).hasError then
      runTaskOutcomes initChunkFileState outcomes
    else handleError (runTaskOutcomes initChunkFileState outcomes)

theorem applyOutcome_absorbed (s : ChunkFileState) (o : TaskOutcome)
    (h : s.hasError = true) : applyOutcome s o = s := by
  cases o with
  | success chunks => unfold applyOutcome onTaskResolve; simp [h]
  | failure msg => unfold applyOutcome onTaskReject handleError; simp [h]

theorem runTaskOutcomes_invariant (outcomes : List TaskOutcome) :
    ∀ s : ChunkFileState,
      s.onErrorCalls = (if s.hasError then 1 else 0) →
      s.rejectCalls = (if s.hasError then 1 else 0) →
      (runTaskOutcomes s outcomes).onErrorCalls =
          (if (runTaskOutcomes s outcomes).hasError then 1 else 0) ∧
        (runTaskOutcomes s outcomes).rejectCalls =
          (if (runTaskOutcomes s outcomes).hasError then 1 else 0) := by
  induction outcomes with
  | nil => intro s h1 h2; exact ⟨h1, h2⟩
  | cons o rest ih =>
    intro s h1 h2
    unfold runTaskOutcomes
    rw [List.foldl_cons]
    have hstep : (applyOutcome s o).onErrorCalls =
        (if (applyOutcome s o).hasError then 1 else 0) ∧
        (applyOutcome s o).rejectCalls =
        (if (applyOutcome s o).hasError then 1 else 0) := by
      cases o with
      | success chunks =>
        have happ : applyOutcome s (.success chunks) = onTaskResolve s chunks := rfl
        rw [happ]
        unfold onTaskResolve
        by_cases h : s.hasError
        · rw [if_pos h]
          exact ⟨h1, h2⟩
        · rw [if_neg h]
          exact ⟨h1, h2⟩
      | failure msg =>
        have happ : applyOutcome s (.failure msg) = handleError s := rfl
        rw [happ]
        unfold handleError
        by_cases h : s.hasError
        · rw [if_pos h]
          exact ⟨h1, h2⟩
        · rw [if_neg h]
          have h1b : s.onErrorCalls = 0 := by rw [h1, if_neg h]
          have h2b : s.rejectCalls = 0 := by rw [h2, if_neg h]
          constructor
          · show s.onErrorCalls + 1 = if (true : Bool) = true then 1 else 0
            rw [h1b]
            simp
          · show s.rejectCalls + 1 = if (true : Bool) = true then 1 else 0
            rw [h2b]
            simp
    exact ih (applyOutcome s o) hstep.1 hstep.2

/-- Claim C8: in one `chunkFile` invocation, however many tasks fail and in
whatever order outcomes arrive, the error callback runs at most once and
the returned promise is rejected at most once; once the first failure is
handled (`hasError` set), every later task completion or failure leaves the
state untouched. -/
theorem chunkFileRun_counts (outcomes : List TaskOutcome) :
    (chunkFileRun outcomes).onErrorCalls =
        (if (chunkFileRun outcomes).hasError = true then 1 else 0) ∧
      (chunkFileRun outcomes).rejectCalls =
        (if (chunkFileRun outcomes).hasError = true then 1 else 0) := by
  obtain ⟨e1, e2⟩ := runTaskOutcomes_invariant outcomes initChunkFileState rfl rfl
  unfold chunkFileRun
  by_cases hall : outcomes.all isSuccessOutcome
  · rw [if_pos hall]
    by_cases herr : (runTaskOutcomes initChunkFileState outcomes).hasError = true
    · rw [if_pos herr]
      exact ⟨e1, e2⟩
    · rw [if_neg herr]
      exact ⟨e1, e2⟩
  · rw [if_neg hall]
    by_cases herr : (runTaskOutcomes initChunkFileState outcomes).hasError = true
    · rw [if_pos herr]
      exact ⟨e1, e2⟩
    · rw [if_neg herr]
      unfold handleError
      rw [if_neg herr]
      have h1b : (runTaskOutcomes initChunkFileState outcomes).onErrorCalls = 0 := by
        rw [e1, if_neg herr]
      have h2b : (runTaskOutcomes initChunkFileState outcomes).rejectCalls = 0 := by
        rw [e2, if_neg herr]
      constructor
      · show (runTaskOutcomes initChunkFileState outcomes).onErrorCalls + 1 =
          if (true : Bool) = true then 1 else 0
        rw [h1b]
        simp
      · show (runTaskOutcomes initChunkFileState outcomes).rejectCalls + 1 =
          if (true : Bool) = true then 1 else 0
        rw [h2b]
        simp

/-- Claim C8: in one `chunkFile` invocation, however many tasks fail and in
whatever order outcomes arrive, the error callback runs at most once and
the returned promise is rejected at most once (exactly once each when a
failure was handled, never otherwise); once the first failure is handled
(`hasError` set), every later task completion or failure leaves the state
untouched. -/
theorem chunkFile_error_once (outcomes : List TaskOutcome) :
    (chunkFileRun outcomes).onErrorCalls ≤ 1 ∧
    (chunkFileRun outcomes).rejectCalls ≤ 1 ∧
    ((chunkFileRun outcomes).onErrorCalls = 1 ↔
      (chunkFileRun outcomes).hasError = true) ∧
    (∀ s : ChunkFileState, s.hasError = true → ∀ o, applyOutcome s o = s) := by
  obtain ⟨e1, e2⟩ := chunkFileRun_counts outcomes
  refine ⟨?_, ?_, ?_, fun st hst o => applyOutcome_absorbed st o hst⟩
  · rw [e1]
    by_cases herr : (chunkFileRun outcomes).hasError = true
    · rw [if_pos herr]
    · rw [if_neg herr]
      omega
  · rw [e2]
    by_cases herr : (chunkFileRun outcomes).hasError = true
    · rw [if_pos herr]
    · rw [if_neg herr]
      omega
  · by_cases herr : (chunkFileRun outcomes).hasError = true
    · rw [e1, if_pos herr]
      simp [herr]
    · rw [e1, if_neg herr]
      simp [herr]

/-- A state in which the failure guard has already run. -/
def failedStateW : ChunkFileState :=
  { hasError := true
    finishCount := 0
    processedBytes := 0
    onErrorCalls := 1
    rejectCalls := 1
    resolveCalls := 0
    progressEvents := [] }

/-- Witness for claim C8: a run with two failures and one success, in
failure-first arrival order, calls the error callback at most once; and a
failed state absorbs a further success outcome. -/
theorem chunkFile_error_once_witness :
    (chunkFileRun [.failure emptyStr, .success [], .failure emptyStr]).onErrorCalls ≤ 1 ∧
      failedStateW.hasError = true ∧
      applyOutcome failedStateW (.success []) = failedStateW :=
  ⟨(chunkFile_error_once [.failure emptyStr, .success [], .failure emptyStr]).1,
    by decide,
    (chunkFile_error_once []).2.2.2 failedStateW (by decide) (.success [])⟩

/-! Claim C4: the batch driver `processFiles` (`chunkUpload`), modelled
with an uncancelled token (the claim concerns completion callbacks). The
per-file chunking outcome — `chunkFile`, possibly wrapped in `withRetry` —
is abstracted as an `Except` per file; callback invocations are recorded
as an event trace in invocation order. -/

/-- Model of `FileInfo` from `types.ts`. -/
structure FileInfo where
  name : String
  type : String
  size : Nat
  lastModified : Nat
  chunks : List ChunkInfo
  deriving Repr, DecidableEq

/-- One observable callback invocation of a `processFiles` run. -/
inductive BatchEvent where
  | errorEvt (e : UploadError)
  | splitEvt (fi : FileInfo)
  | perEvt (fi : FileInfo) (isDone : Bool)
  | lastEvt (results : List FileInfo)
  deriving Repr, DecidableEq

def mkFileInfo (f : MFile) (chunks : List ChunkInfo) : FileInfo :=
  { name := f.name
    type := f.type
    size := f.size
    lastModified := f.lastModified
    chunks := chunks }

/-- The validation step of the loop body: `if (validation) \x7b ... \x7d`. -/
def batchSkip (validation : Option FileValidationConfig) (f : MFile) :
    Option UploadError :=
  match validation with
  | none => none
  | some v => validateFile f (some v)

/-- The `for (const file of files)` loop of `processFiles` (`part_011`
lines 37-131): a skipped file reports the validation error and continues
without touching `fileCount`; a successful file decrements `fileCount`
(`Int`, as a JS decrement can pass zero), fires `splitCallback` and
`perCallback` (with `isDone` exactly when the counter reached zero),
appends to `results`, and fires `lastCallback` with the accumulated
results when `isDone`; a failed chunking reports the error and aborts. -/
def processLoop (validation : Option FileValidationConfig)
    (outcome : MFile → Except UploadError (List ChunkInfo)) :
    List MFile → Int → List FileInfo →
      Except UploadError (List FileInfo) × List BatchEvent
  | [], _, results => (.ok results, [])
  | f :: rest, fileCount, results =>
    match batchSkip validation f with
    | some verr =>
      let r := processLoop validation outcome rest fileCount results
      (r.1, .errorEvt verr :: r.2)
    | none =>
      match outcome f with
      | .error e => (.error e, [.errorEvt e])
      | .ok chunks =>
        let fi := mkFileInfo f chunks
        let isDone := fileCount - 1 == 0
        let r := processLoop validation outcome rest (fileCount - 1) (results ++ [fi])
        (r.1, .splitEvt fi :: .perEvt fi isDone ::
          ((if isDone then [.lastEvt (results ++ [fi])] else []) ++ r.2))

/-- Embedding of `processFiles` (`part_011` lines 16-134): the loop starts
with `fileCount = files.length` and empty results. -/
def processFiles (files : List MFile) (validation : Option FileValidationConfig)
    (outcome : MFile → Except UploadError (List ChunkInfo)) :
    Except UploadError (List FileInfo) × List BatchEvent :=
  processLoop validation outcome files (files.length : Int) []

def isLastEvt : BatchEvent → Bool
  | .lastEvt _ => true
  | _ => false

def isPerDoneEvt : BatchEvent → Bool
  | .perEvt _ true => true
  | _ => false

def isPerEvt : BatchEvent → Bool
  | .perEvt _ _ => true
  | _ => false

def isErrorEvt : BatchEvent → Bool
  | .errorEvt _ => true
  | _ => false

/-- Number of files the validation step lets through. -/
def nskCount (validation : Option FileValidationConfig) (fs : List MFile) : Nat :=
  fs.countP (fun f => (batchSkip validation f).isNone)

/-- The per-file results the loop accumulates for the files it keeps. -/
def keptResults (validation : Option FileValidationConfig)
    (outcome : MFile → Except UploadError (List ChunkInfo)) (fs : List MFile) :
    List FileInfo :=
  fs.filterMap (fun f =>
    if (batchSkip validation f).isNone then
      some (mkFileInfo f ((outcome f).toOption.getD []))
    else none)

theorem processLoop_counts (validation : Option FileValidationConfig)
    (outcome : MFile → Except UploadError (List ChunkInfo)) :
    ∀ (fs : List MFile), (∀ f ∈ fs, (batchSkip validation f).isNone = true →
        (outcome f).isOk = true) →
      ∀ (count : Int) (res : List FileInfo),
        (processLoop validation outcome fs count res).2.countP isLastEvt =
          (if 1 ≤ count ∧ count ≤ (nskCount validation fs : Int) then 1 else 0) ∧
        (processLoop validation outcome fs count res).2.countP isPerDoneEvt =
          (if 1 ≤ count ∧ count ≤ (nskCount validation fs : Int) then 1 else 0) ∧
        (processLoop validation outcome fs count res).2.countP isErrorEvt =
          fs.countP (fun f => (batchSkip validation f).isSome) ∧
        (processLoop validation outcome fs count res).2.countP isPerEvt =
          nskCount validation fs ∧
        (processLoop validation outcome fs count res).1 =
          .ok (res ++ keptResults validation outcome fs) := by
  intro fs
  induction fs with
  | nil =>
    intro _ count res
    unfold processLoop nskCount keptResults
    have h0 : ¬(1 ≤ count ∧ count ≤ (0 : Int)) := by omega
    simp [h0]
  | cons f rest ih =>
    intro hok count res
    have hokr : ∀ g ∈ rest, (batchSkip validation g).isNone = true →
        (outcome g).isOk = true :=
      fun g hg => hok g (List.mem_cons_of_mem f hg)
    unfold processLoop
    cases hskip : batchSkip validation f with
    | some verr =>
      simp only
      obtain ⟨c1, c2, c3, c4, c5⟩ := ih hokr count res
      have hn : nskCount validation (f :: rest) = nskCount validation rest := by
        unfold nskCount
        rw [List.countP_cons]
        simp [hskip]
      have hkept : keptResults validation outcome (f :: rest) =
          keptResults validation outcome rest := by
        unfold keptResults
        rw [List.filterMap_cons]
        simp [hskip]
      refine ⟨?_, ?_, ?_, ?_, ?_⟩
      · rw [List.countP_cons, c1, hn]
        simp [isLastEvt]
      · rw [List.countP_cons, c2, hn]
        simp [isPerDoneEvt]
      · rw [List.countP_cons, c3, List.countP_cons]
        simp [isErrorEvt, hskip]
      · rw [List.countP_cons, c4, hn]
        simp [isPerEvt]
      · rw [c5, hkept]
    | none =>
      have hokf : (outcome f).isOk = true :=
        hok f (List.mem_cons_self f rest) (by simp [hskip])
      cases hout : outcome f with
      | error e => rw [hout] at hokf; simp [Except.isOk, Except.toBool] at hokf
      | ok chunks =>
        simp only
        obtain ⟨c1, c2, c3, c4, c5⟩ := ih hokr (count - 1) (res ++ [mkFileInfo f chunks])
        have hn : nskCount validation (f :: rest) = nskCount validation rest + 1 := by
          unfold nskCount
          rw [List.countP_cons]
          simp [hskip]
        have hkept : keptResults validation outcome (f :: rest) =
            mkFileInfo f chunks :: keptResults validation outcome rest := by
          unfold keptResults
          rw [List.filterMap_cons]
          simp [hskip, hout, Except.toOption]
        by_cases hdone : count - 1 = 0
        · have hbeq : (count - 1 == 0) = true := by
            simp [hdone]
          have hA : 1 ≤ count ∧ count ≤ ((nskCount validation rest + 1 : Nat) : Int) := by
            push_cast
            omega
          have hB : ¬(1 ≤ count - 1 ∧
              count - 1 ≤ ((nskCount validation rest : Nat) : Int)) := by
            omega
          rw [hbeq] at *
          refine ⟨?_, ?_, ?_, ?_, ?_⟩
          · simp only [if_true, List.countP_cons, List.countP_append,
              List.countP_nil, c1, hn]
            rw [if_neg hB, if_pos hA]
            simp [isLastEvt]
          · simp only [if_true, List.countP_cons, List.countP_append,
              List.countP_nil, c2, hn]
            rw [if_neg hB, if_pos hA]
            simp [isPerDoneEvt]
          · simp only [if_true, List.countP_cons, List.countP_append,
              List.countP_nil, c3, List.countP_cons]
            simp [isErrorEvt, hskip]
          · simp only [if_true, List.countP_cons, List.countP_append,
              List.countP_nil, c4, hn]
            simp [isPerEvt]
          · simp only [if_true, c5]
            rw [hkept]
            simp
        · have hbeq : (count - 1 == 0) = false := by
            simp [hdone]
          have hAB : (if 1 ≤ count - 1 ∧
                count - 1 ≤ ((nskCount validation rest : Nat) : Int) then 1 else 0) =
              (if 1 ≤ count ∧
                count ≤ ((nskCount validation rest + 1 : Nat) : Int) then (1 : Nat) else 0) := by
            by_cases hc : 1 ≤ count - 1 ∧ count - 1 ≤ ((nskCount validation rest : Nat) : Int)
            · rw [if_pos hc, if_pos (by push_cast at hc ⊢; omega)]
            · rw [if_neg hc, if_neg (by push_cast at hc ⊢; omega)]
          rw [hbeq] at *
          refine ⟨?_, ?_, ?_, ?_, ?_⟩
          · simp only [Bool.false_eq_true, if_false, List.nil_append,
              List.countP_cons, c1, hn, hAB]
            simp [isLastEvt]
          · simp only [Bool.false_eq_true, if_false, List.nil_append,
              List.countP_cons, c2, hn, hAB]
            simp [isPerDoneEvt]
          · simp only [Bool.false_eq_true, if_false, List.nil_append,
              List.countP_cons, c3, List.countP_cons]
            simp [isErrorEvt, hskip]
          · simp only [Bool.false_eq_true, if_false, List.nil_append,
              List.countP_cons, c4, hn]
            simp [isPerEvt]
          · simp only [Bool.false_eq_true, if_false, c5]
            rw [hkept]
            simp

theorem processLoop_happy_shape (validation : Option FileValidationConfig)
    (outcome : MFile → Except UploadError (List ChunkInfo)) :
    ∀ (fs : List MFile), fs ≠ [] →
      (∀ f ∈ fs, (batchSkip validation f).isNone = true ∧
        ∃ ch, outcome f = .ok ch) →
      ∀ res, ∃ pre fi,
        (processLoop validation outcome fs (fs.length : Int) res).2 =
          pre ++ [.splitEvt fi, .perEvt fi true,
            .lastEvt (res ++ keptResults validation outcome fs)] := by
  intro fs
  induction fs with
  | nil => intro h; exact absurd rfl h
  | cons f rest ih =>
    intro _ hall res
    obtain ⟨hskip, ch, hout⟩ := hall f (List.mem_cons_self f rest)
    have hskip2 : batchSkip validation f = none := Option.isNone_iff_eq_none.mp hskip
    unfold processLoop
    rw [hskip2, hout]
    simp only
    cases rest with
    | nil =>
      have hbeq : (((([f] : List MFile).length : Int)) - 1 == 0) = true := by
        simp
      rw [hbeq]
      refine ⟨[], mkFileInfo f ch, ?_⟩
      unfold processLoop keptResults
      rw [List.filterMap_cons]
      simp [hskip2, hout, Except.toOption]
    | cons g rest2 =>
      have hbeq : ((((f :: g :: rest2 : List MFile).length : Int)) - 1 == 0) = false := by
        simp only [List.length_cons]
        push_cast
        simp
        omega
      rw [hbeq]
      have hlen : ((f :: g :: rest2 : List MFile).length : Int) - 1 =
          ((g :: rest2 : List MFile).length : Int) := by
        simp only [List.length_cons]
        push_cast
        omega
      rw [hlen]
      have hallr : ∀ x ∈ g :: rest2, (batchSkip validation x).isNone = true ∧
          ∃ ch2, outcome x = .ok ch2 :=
        fun x hx => hall x (List.mem_cons_of_mem f hx)
      obtain ⟨pre2, fi2, hsh⟩ := ih (by simp) hallr (res ++ [mkFileInfo f ch])
      refine ⟨.splitEvt (mkFileInfo f ch) :: .perEvt (mkFileInfo f ch) false :: pre2,
        fi2, ?_⟩
      simp only [Bool.false_eq_true, if_false, List.nil_append, hsh]
      have hkept : keptResults validation outcome (f :: g :: rest2) =
          mkFileInfo f ch :: keptResults validation outcome (g :: rest2) := by
        unfold keptResults
        rw [List.filterMap_cons]
        simp [hskip2, hout, Except.toOption]
      rw [hkept]
      simp

/-- Claim C4 (amended): in a run where every non-skipped file chunks
successfully, (a) when no file is skipped by validation and the list is
non-empty, the per-file callback carries `isDone = true` exactly once, the
all-files callback fires exactly once — as the final event, right after
the last file's per-file callback, with the accumulated results — and the
returned promise resolves with those results; (b) when at least one file
is skipped, the skipped files are reported via the error callback and the
loop continues (one per-file callback per kept file, the promise still
resolves), but the remaining-file counter never reaches zero, so no
per-file callback carries `isDone = true` and the all-files callback is
never invoked. -/
theorem processFiles_batch_spec (files : List MFile)
    (validation : Option FileValidationConfig)
    (outcome : MFile → Except UploadError (List ChunkInfo))
    (hok : ∀ f ∈ files, (batchSkip validation f).isNone = true →
      (outcome f).isOk = true) :
    ((∀ f ∈ files, (batchSkip validation f).isNone = true) → files ≠ [] →
      (processFiles files validation outcome).2.countP isLastEvt = 1 ∧
      (processFiles files validation outcome).2.countP isPerDoneEvt = 1 ∧
      (processFiles files validation outcome).1 =
        .ok (keptResults validation outcome files) ∧
      ∃ pre fi, (processFiles files validation outcome).2 =
        pre ++ [.splitEvt fi, .perEvt fi true,
          .lastEvt (keptResults validation outcome files)]) ∧
    ((∃ f ∈ files, (batchSkip validation f).isNone = false) →
      (processFiles files validation outcome).2.countP isLastEvt = 0 ∧
      (processFiles files validation outcome).2.countP isPerDoneEvt = 0 ∧
      (processFiles files validation outcome).2.countP isErrorEvt =
        files.countP (fun f => (batchSkip validation f).isSome) ∧
      (processFiles files validation outcome).2.countP isPerEvt =
        nskCount validation files ∧
      (processFiles files validation outcome).1 =
        .ok (keptResults validation outcome files)) := by
  obtain ⟨c1, c2, c3, c4, c5⟩ :=
    processLoop_counts validation outcome files hok (files.length : Int) []
  constructor
  · intro hall hne
    have hnsk : nskCount validation files = files.length :=
      List.countP_eq_length.mpr hall
    have hpos : 0 < files.length := List.length_pos.mpr hne
    have hcond : 1 ≤ (files.length : Int) ∧
        (files.length : Int) ≤ ((nskCount validation files : Nat) : Int) := by
      rw [hnsk]
      push_cast
      omega
    have hall2 : ∀ f ∈ files, (batchSkip validation f).isNone = true ∧
        ∃ ch, outcome f = .ok ch := by
      intro f hf
      refine ⟨hall f hf, ?_⟩
      have hko := hok f hf (hall f hf)
      cases ho : outcome f with
      | error e => rw [ho] at hko; simp [Except.isOk, Except.toBool] at hko
      | ok ch => exact ⟨ch, rfl⟩
    refine ⟨?_, ?_, ?_, ?_⟩
    · unfold processFiles
      rw [c1, if_pos hcond]
    · unfold processFiles
      rw [c2, if_pos hcond]
    · unfold processFiles
      rw [c5]
      simp
    · obtain ⟨pre, fi, hsh⟩ := processLoop_happy_shape validation outcome files hne hall2 []
      refine ⟨pre, fi, ?_⟩
      unfold processFiles
      rw [hsh]
      simp
  · intro hex
    obtain ⟨g, hg, hgskip⟩ := hex
    have hlt : nskCount validation files < files.length := by
      rcases Nat.lt_or_ge (nskCount validation files) files.length with h | h
      · exact h
      · exfalso
        have heq : nskCount validation files = files.length :=
          Nat.le_antisymm (List.countP_le_length _) h
        have := List.countP_eq_length.mp heq g hg
        rw [hgskip] at this
        simp at this
    have hcond : ¬(1 ≤ (files.length : Int) ∧
        (files.length : Int) ≤ ((nskCount validation files : Nat) : Int)) := by
      push_cast
      omega
    refine ⟨?_, ?_, ?_, ?_, ?_⟩
    · unfold processFiles
      rw [c1, if_neg hcond]
    · unfold processFiles
      rw [c2, if_neg hcond]
    · unfold processFiles
      rw [c3]
    · unfold processFiles
      rw [c4]
    · unfold processFiles
      rw [c5]
      simp

def invalidFileW : MFile :=
  { name := "big.bin", type := "application/octet-stream", size := 20, lastModified := 0 }

def validFileW : MFile :=
  { name := "ok.bin", type := "application/octet-stream", size := 5, lastModified := 0 }

def maxTenConfig : FileValidationConfig :=
  { allowedTypes := none, blockedTypes := none, maxSize := some 10,
    minSize := none, validate := none }

def outcomeW : MFile → Except UploadError (List ChunkInfo) := fun _ => .ok []

/-- Counterexample to claim C4 as stated: with two files of which the first
fails validation (size 20 over maxSize 10) and the second chunks
successfully, the claim demands the all-files callback fire exactly once
and the last file carry `isDone = true`; in the source, a skipped file
never decrements `fileCount`, so the counter ends at 1, `isDone` is never
true and `lastCallback` is never invoked (the skip itself is reported and
the loop continues). -/
theorem processFiles_skip_counterexample :
    (processFiles [invalidFileW, validFileW] (some maxTenConfig) outcomeW).2.countP
        isLastEvt = 0 ∧
      (processFiles [invalidFileW, validFileW] (some maxTenConfig) outcomeW).2.countP
        isPerDoneEvt = 0 ∧
      (processFiles [invalidFileW, validFileW] (some maxTenConfig) outcomeW).2.countP
        isErrorEvt = 1 ∧
      (processFiles [invalidFileW, validFileW] (some maxTenConfig) outcomeW).2.countP
        isPerEvt = 1 ∧
      (0 : Nat) ≠ 1 := by
  refine ⟨by decide, by decide, by decide, by decide, by decide⟩

/-- Witness for the amended batch theorem, at the skip scenario inputs. -/
theorem processFiles_batch_spec_witness :
    (∀ f ∈ [invalidFileW, validFileW],
      (batchSkip (some maxTenConfig) f).isNone = true → (outcomeW f).isOk = true) ∧
    (∃ f ∈ [invalidFileW, validFileW],
      (batchSkip (some maxTenConfig) f).isNone = false) ∧
    (processFiles [invalidFileW, validFileW] (some maxTenConfig) outcomeW).2.countP
      isLastEvt = 0 :=
  ⟨by decide, by decide,
    ((processFiles_batch_spec [invalidFileW, validFileW] (some maxTenConfig) outcomeW
      (by decide)).2 (by decide)).1⟩

/-! Claim C9: the `WorkerPool` (`utils/workerPool.ts`). Workers are
list-indexed; a task carries a `postOk` flag telling whether the host's
`postMessage` for it succeeds (the `try/catch` in `assignTask`); worker
creation outcomes (the `try/catch` in `initializeWorkers`) are a list of
booleans, one per `maxWorkers` slot. -/

/-- A queued task, reduced to the fields the pool state machine observes. -/
structure PWorkerTask where
  startIndex : Nat
  endIndex : Nat
  postOk : Bool
  deriving Repr, DecidableEq

/-- A `WorkerInstance`: its busy flag and current task. -/
structure WorkerInstance where
  isBusy : Bool
  currentTask : Option PWorkerTask
  deriving Repr, DecidableEq

/-- The pool state: worker instances and the FIFO task queue. -/
structure PoolState where
  workers : List WorkerInstance
  taskQueue : List PWorkerTask
  deriving Repr, DecidableEq

def setWorker (s : PoolState) (idx : Nat) (w : WorkerInstance) : PoolState :=
  { s with workers := s.workers.set idx w }

/-- The body of `assignTask` fused with the queue drain it can trigger: mark the
worker busy with the task; when `postMessage` fails, reject the task,
reset the worker and process the next queued task (`workerPool.ts` lines
195-227 and 185-190). The recursion consumes the queue, which is why the
queue is the first argument. -/
def assignLoop : List PWorkerTask → List WorkerInstance → Nat → PWorkerTask →
    PoolState
  | queue, workers, idx, t =>
    if t.postOk then ⟨workers.set idx ⟨true, some t⟩, queue⟩
    else
      match queue with
      | [] => ⟨(workers.set idx ⟨true, some t⟩).set idx ⟨false, none⟩, []⟩
      | q :: rest =>
        assignLoop rest ((workers.set idx ⟨true, some t⟩).set idx ⟨false, none⟩) idx q

/-- Embedding of `assignTask` on a pool state (`workerPool.ts` lines 195-227). -/
def assignTask (s : PoolState) (idx : Nat) (t : PWorkerTask) : PoolState :=
  assignLoop s.taskQueue s.workers idx t

/-- Embedding of `processNextTask` (`workerPool.ts` lines 185-190). -/
def processNextTask (s : PoolState) (idx : Nat) : PoolState :=
  match s.taskQueue with
  | [] => s
  | t :: rest => assignLoop rest s.workers idx t

/-- Embedding of `handleWorkerMessage` (`workerPool.ts` lines 88-139): no current task
means an early return; otherwise the task callback fires (no pool-state
effect), the worker is reset, and the next queued task is processed. -/
def handleWorkerMessage (s : PoolState) (idx : Nat) : PoolState :=
  match s.workers[idx]? with
  | none => s
  | some w =>
    match w.currentTask with
    | none => s
    | some _ => processNextTask (setWorker s idx ⟨false, none⟩) idx

/-- Embedding of `handleWorkerError` (`workerPool.ts` lines 144-180): reject and reset
only when a task is assigned, then always process the queue. -/
def handleWorkerError (s : PoolState) (idx : Nat) : PoolState :=
  match s.workers[idx]? with
  | none => s
  | some w =>
    match w.currentTask with
    | none => processNextTask s idx
    | some _ => processNextTask (setWorker s idx ⟨false, none⟩) idx

/-- Embedding of `initializeWorkers` (`workerPool.ts` lines 44-83): only when no worker
exists yet; one creation attempt per `maxWorkers` slot, a failed attempt
is skipped (caught and logged), a successful one pushes an idle worker. -/
def initializeWorkers (s : PoolState) (createOutcomes : List Bool) : PoolState :=
  if 0 < s.workers.length then s
  else
    { s with
      workers := (createOutcomes.filter (fun b => b)).map
        (fun _ => ⟨false, none⟩) }

/-- The index of the first idle worker, modelling
`this.workers.find(w => !w.isBusy)` (`workerPool.ts` line 237). -/
def findIdleIdx : List WorkerInstance → Option Nat
  | [] => none
  | w :: rest =>
    if !w.isBusy then some 0 else (findIdleIdx rest).map (fun i => i + 1)

/-- Embedding of `submitTask` (`workerPool.ts` lines 232-246): lazily initialize, then
assign to an idle worker or append to the FIFO queue. -/
def submitTask (s : PoolState) (createOutcomes : List Bool) (t : PWorkerTask) :
    PoolState :=
  match findIdleIdx (initializeWorkers s createOutcomes).workers with
  | some idx => assignTask (initializeWorkers s createOutcomes) idx t
  | none =>
    { initializeWorkers s createOutcomes with
      taskQueue := (initializeWorkers s createOutcomes).taskQueue ++ [t] }

/-- One observable transition of the pool: a task submission (with the
host's creation outcomes for a lazy initialization), a worker message, or
a worker-level error. -/
inductive PoolStep : PoolState → PoolState → Prop where
  | submit (s : PoolState) (outcomes : List Bool) (t : PWorkerTask) :
      PoolStep s (submitTask s outcomes t)
  | message (s : PoolState) (idx : Nat) : PoolStep s (handleWorkerMessage s idx)
  | workerError (s : PoolState) (idx : Nat) : PoolStep s (handleWorkerError s idx)

/-- States reachable from the fresh pool by any transition sequence. -/
inductive PoolReachable : PoolState → Prop where
  | init : PoolReachable ⟨[], []⟩
  | step {s s2 : PoolState} : PoolReachable s → PoolStep s s2 → PoolReachable s2

/-- Transitions of a pool with a fixed size `maxWorkers` on a host where
worker creation always succeeds. -/
inductive PoolStepOk (maxWorkers : Nat) : PoolState → PoolState → Prop where
  | submit (s : PoolState) (t : PWorkerTask) :
      PoolStepOk maxWorkers s (submitTask s (List.replicate maxWorkers true) t)
  | message (s : PoolState) (idx : Nat) :
      PoolStepOk maxWorkers s (handleWorkerMessage s idx)
  | workerError (s : PoolState) (idx : Nat) :
      PoolStepOk maxWorkers s (handleWorkerError s idx)

/-- States reachable on a creation-reliable host with fixed pool size. -/
inductive PoolReachableOk (maxWorkers : Nat) : PoolState → Prop where
  | init : PoolReachableOk maxWorkers ⟨[], []⟩
  | step {s s2 : PoolState} : PoolReachableOk maxWorkers s →
      PoolStepOk maxWorkers s s2 → PoolReachableOk maxWorkers s2

/-- Part (a) of the claimed invariant: a worker is busy exactly when it
holds a task. -/
def busyIffTask (s : PoolState) : Prop :=
  ∀ (j : Nat) (w : WorkerInstance), s.workers[j]? = some w →
    (w.isBusy = true ↔ w.currentTask ≠ none)

/-- Part (b) of the claimed invariant: a non-empty queue means every
existing worker is busy. -/
def queueAllBusy (s : PoolState) : Prop :=
  s.taskQueue ≠ [] → ∀ (j : Nat) (w : WorkerInstance),
    s.workers[j]? = some w → w.isBusy = true

/-- Part (a) of the invariant, stated on a worker list. -/
def busyIffW (ws : List WorkerInstance) : Prop :=
  ∀ (j : Nat) (w : WorkerInstance), ws[j]? = some w →
    (w.isBusy = true ↔ w.currentTask ≠ none)

theorem busyIffW_set (ws : List WorkerInstance) (idx : Nat) (w0 : WorkerInstance)
    (hw0 : w0.isBusy = true ↔ w0.currentTask ≠ none) (h : busyIffW ws) :
    busyIffW (ws.set idx w0) := by
  intro j w hj
  rw [List.getElem?_set] at hj
  by_cases hij : idx = j
  · rw [if_pos hij] at hj
    by_cases hlt : idx < ws.length
    · rw [if_pos hlt] at hj
      cases Option.some.inj hj
      exact hw0
    · rw [if_neg hlt] at hj
      exact absurd hj (by simp)
  · rw [if_neg hij] at hj
    exact h j w hj

theorem getElem?_set_set_ne (ws : List WorkerInstance) (idx j : Nat)
    (a b : WorkerInstance) (h : idx ≠ j) :
    ((ws.set idx a).set idx b)[j]? = ws[j]? := by
  rw [List.getElem?_set_ne h, List.getElem?_set_ne h]

theorem assignLoop_workers_length :
    ∀ (queue : List PWorkerTask) (ws : List WorkerInstance) (idx : Nat)
      (t : PWorkerTask),
      (assignLoop queue ws idx t).workers.length = ws.length := by
  intro queue
  induction queue with
  | nil =>
    intro ws idx t
    unfold assignLoop
    by_cases h : t.postOk = true <;> simp [h, List.length_set]
  | cons q rest ih =>
    intro ws idx t
    unfold assignLoop
    by_cases h : t.postOk = true
    · simp [h, List.length_set]
    · simp only [h, Bool.false_eq_true, if_false]
      rw [ih]
      simp [List.length_set]

theorem assignLoop_busyIff :
    ∀ (queue : List PWorkerTask) (ws : List WorkerInstance) (idx : Nat)
      (t : PWorkerTask), busyIffW ws →
      busyIffTask (assignLoop queue ws idx t) := by
  intro queue
  induction queue with
  | nil =>
    intro ws idx t hbusy
    unfold assignLoop
    by_cases h : t.postOk = true
    · simp only [h, if_true]
      exact busyIffW_set ws idx ⟨true, some t⟩ (by simp) hbusy
    · simp only [h, Bool.false_eq_true, if_false]
      exact busyIffW_set _ idx ⟨false, none⟩ (by simp)
        (busyIffW_set ws idx ⟨true, some t⟩ (by simp) hbusy)
  | cons q rest ih =>
    intro ws idx t hbusy
    unfold assignLoop
    by_cases h : t.postOk = true
    · simp only [h, if_true]
      exact busyIffW_set ws idx ⟨true, some t⟩ (by simp) hbusy
    · simp only [h, Bool.false_eq_true, if_false]
      exact ih _ idx q (busyIffW_set _ idx ⟨false, none⟩ (by simp)
        (busyIffW_set ws idx ⟨true, some t⟩ (by simp) hbusy))

theorem assignLoop_inv :
    ∀ (queue : List PWorkerTask) (ws : List WorkerInstance) (idx : Nat)
      (t : PWorkerTask),
      idx < ws.length → busyIffW ws →
      (queue ≠ [] → ∀ (j : Nat) (w : WorkerInstance), j ≠ idx →
        ws[j]? = some w → w.isBusy = true) →
      busyIffTask (assignLoop queue ws idx t) ∧
        queueAllBusy (assignLoop queue ws idx t) := by
  intro queue
  induction queue with
  | nil =>
    intro ws idx t hidx hbusy _
    refine ⟨assignLoop_busyIff [] ws idx t hbusy, ?_⟩
    unfold assignLoop
    by_cases h : t.postOk = true
    · simp only [h, if_true]
      intro hne
      exact absurd rfl hne
    · simp only [h, Bool.false_eq_true, if_false]
      intro hne
      exact absurd rfl hne
  | cons q rest ih =>
    intro ws idx t hidx hbusy hq
    refine ⟨assignLoop_busyIff (q :: rest) ws idx t hbusy, ?_⟩
    unfold assignLoop
    by_cases h : t.postOk = true
    · simp only [h, if_true]
      intro _ j w hj
      by_cases hij : idx = j
      · subst hij
        rw [List.getElem?_set, if_pos rfl, if_pos hidx] at hj
        cases Option.some.inj hj
        rfl
      · rw [List.getElem?_set_ne hij] at hj
        exact hq (by simp) j w (fun he => hij he.symm) hj
    · simp only [h, Bool.false_eq_true, if_false]
      have hrec := ih ((ws.set idx ⟨true, some t⟩).set idx ⟨false, none⟩) idx q
        (by simp [List.length_set]; omega)
        (busyIffW_set _ idx ⟨false, none⟩ (by simp)
          (busyIffW_set ws idx ⟨true, some t⟩ (by simp) hbusy))
        (fun hne j w hjne hj => by
          rw [getElem?_set_set_ne ws idx j _ _ (fun he => hjne he.symm)] at hj
          exact hq (by simp) j w hjne hj)
      exact hrec.2

theorem findIdleIdx_some :
    ∀ (ws : List WorkerInstance) (i : Nat), findIdleIdx ws = some i →
      i < ws.length ∧ ∃ w, ws[i]? = some w ∧ w.isBusy = false := by
  intro ws
  induction ws with
  | nil => intro i h; simp [findIdleIdx] at h
  | cons w rest ih =>
    intro i h
    unfold findIdleIdx at h
    by_cases hb : w.isBusy = true
    · rw [if_neg (by simp [hb])] at h
      rw [Option.map_eq_some'] at h
      obtain ⟨i2, h2, rfl⟩ := h
      obtain ⟨hlt, w2, hw2, hbw⟩ := ih i2 h2
      exact ⟨by simp; omega, w2, by simpa using hw2, hbw⟩
    · rw [if_pos (by simp [hb])] at h
      cases Option.some.inj h
      refine ⟨by simp, w, by simp, by simpa using hb⟩

theorem findIdleIdx_none :
    ∀ (ws : List WorkerInstance), findIdleIdx ws = none →
      ∀ (j : Nat) (w : WorkerInstance), ws[j]? = some w → w.isBusy = true := by
  intro ws
  induction ws with
  | nil => intro _ j w hj; simp at hj
  | cons w0 rest ih =>
    intro h j w hj
    unfold findIdleIdx at h
    by_cases hb : w0.isBusy = true
    · rw [if_neg (by simp [hb])] at h
      rw [Option.map_eq_none'] at h
      cases j with
      | zero =>
        rw [List.getElem?_cons_zero] at hj
        cases Option.some.inj hj
        exact hb
      | succ j2 =>
        rw [List.getElem?_cons_succ] at hj
        exact ih h j2 w hj
    · rw [if_pos (by simp [hb])] at h
      exact absurd h (by simp)

/-- The inductive invariant for creation-reliable runs: both claimed
parts, plus the bookkeeping fact that with a positive pool size a
non-empty queue implies the workers exist. -/
def PoolAux (maxWorkers : Nat) (s : PoolState) : Prop :=
  busyIffTask s ∧ queueAllBusy s ∧
    (1 ≤ maxWorkers → s.taskQueue ≠ [] → s.workers ≠ [])

theorem processNextTask_aux (maxWorkers : Nat) (s : PoolState) (idx : Nat)
    (hidx : idx < s.workers.length)
    (hbusy : busyIffTask s)
    (hq : s.taskQueue ≠ [] → ∀ (j : Nat) (w : WorkerInstance), j ≠ idx →
      s.workers[j]? = some w → w.isBusy = true)
    (hw : 1 ≤ maxWorkers → s.workers ≠ []) :
    PoolAux maxWorkers (processNextTask s idx) := by
  unfold processNextTask
  cases hqq : s.taskQueue with
  | nil =>
    refine ⟨hbusy, ?_, ?_⟩
    · intro hne
      rw [hqq] at hne
      exact absurd rfl hne
    · intro hm hne
      rw [hqq] at hne
      exact absurd rfl hne
  | cons q rest =>
    have hrec := assignLoop_inv rest s.workers idx q hidx hbusy
      (fun _ j w hjne hj => hq (by rw [hqq]; simp) j w hjne hj)
    refine ⟨hrec.1, hrec.2, ?_⟩
    intro hm _
    show (assignLoop rest s.workers idx q).workers ≠ []
    have hlen := assignLoop_workers_length rest s.workers idx q
    intro hcon
    rw [hcon] at hlen
    simp at hlen
    exact (hw hm) (List.length_eq_zero.mp hlen.symm)

theorem handleWorkerMessage_aux (maxWorkers : Nat) (s : PoolState) (idx : Nat)
    (h : PoolAux maxWorkers s) : PoolAux maxWorkers (handleWorkerMessage s idx) := by
  unfold handleWorkerMessage
  split
  · exact h
  · rename_i w hg
    split
    · exact h
    · rename_i t0 hct
      have hidx : idx < s.workers.length := (List.getElem?_eq_some.mp hg).1
      apply processNextTask_aux
      · show idx < (s.workers.set idx ⟨false, none⟩).length
        rw [List.length_set]
        exact hidx
      · exact busyIffW_set s.workers idx ⟨false, none⟩ (by simp) h.1
      · intro hne j w2 hjne hj
        rw [show (setWorker s idx ⟨false, none⟩).workers =
          s.workers.set idx ⟨false, none⟩ from rfl,
          List.getElem?_set_ne (fun he => hjne he.symm)] at hj
        exact h.2.1 hne j w2 hj
      · intro _
        show s.workers.set idx ⟨false, none⟩ ≠ []
        intro hcon
        have hl := List.length_set s.workers idx (⟨false, none⟩ : WorkerInstance)
        rw [hcon] at hl
        simp at hl
        omega

theorem handleWorkerError_aux (maxWorkers : Nat) (s : PoolState) (idx : Nat)
    (h : PoolAux maxWorkers s) : PoolAux maxWorkers (handleWorkerError s idx) := by
  unfold handleWorkerError
  split
  · exact h
  · rename_i w hg
    have hidx : idx < s.workers.length := (List.getElem?_eq_some.mp hg).1
    split
    · apply processNextTask_aux
      · exact hidx
      · exact h.1
      · intro hne j w2 _ hj
        exact h.2.1 hne j w2 hj
      · intro _
        intro hcon
        rw [hcon] at hidx
        simp at hidx
    · rename_i t0 hct
      apply processNextTask_aux
      · show idx < (s.workers.set idx ⟨false, none⟩).length
        rw [List.length_set]
        exact hidx
      · exact busyIffW_set s.workers idx ⟨false, none⟩ (by simp) h.1
      · intro hne j w2 hjne hj
        rw [show (setWorker s idx ⟨false, none⟩).workers =
          s.workers.set idx ⟨false, none⟩ from rfl,
          List.getElem?_set_ne (fun he => hjne he.symm)] at hj
        exact h.2.1 hne j w2 hj
      · intro _
        show s.workers.set idx ⟨false, none⟩ ≠ []
        intro hcon
        have hl := List.length_set s.workers idx (⟨false, none⟩ : WorkerInstance)
        rw [hcon] at hl
        simp at hl
        omega

theorem submitTask_ok_aux (maxWorkers : Nat) (s : PoolState) (t : PWorkerTask)
    (h : PoolAux maxWorkers s) :
    PoolAux maxWorkers (submitTask s (List.replicate maxWorkers true) t) := by
  unfold submitTask
  by_cases hlen : 0 < s.workers.length
  · have hinit : initializeWorkers s (List.replicate maxWorkers true) = s := by
      unfold initializeWorkers
      rw [if_pos hlen]
    rw [hinit]
    split
    · rename_i idx hfind
      obtain ⟨hidx, w0, hw0, hbw0⟩ := findIdleIdx_some s.workers idx hfind
      have hrec := assignLoop_inv s.taskQueue s.workers idx t hidx h.1
        (fun hne j w hjne hj => h.2.1 hne j w hj)
      refine ⟨hrec.1, hrec.2, ?_⟩
      intro _ _
      show (assignLoop s.taskQueue s.workers idx t).workers ≠ []
      have hl := assignLoop_workers_length s.taskQueue s.workers idx t
      intro hcon
      rw [hcon] at hl
      simp at hl
      omega
    · rename_i hfind
      refine ⟨h.1, ?_, ?_⟩
      · intro _ j w hj
        exact findIdleIdx_none s.workers hfind j w hj
      · intro _ _
        show s.workers ≠ []
        intro hcon
        rw [hcon] at hlen
        simp at hlen
  · have hwnil : s.workers = [] := by
      cases hw : s.workers with
      | nil => rfl
      | cons a l => rw [hw] at hlen; simp at hlen
    have hinitw : (initializeWorkers s (List.replicate maxWorkers true)).workers =
        List.replicate maxWorkers (⟨false, none⟩ : WorkerInstance) := by
      unfold initializeWorkers
      rw [if_neg hlen]
      simp [List.filter_replicate, List.map_replicate]
    have hinitq : (initializeWorkers s (List.replicate maxWorkers true)).taskQueue =
        s.taskQueue := by
      unfold initializeWorkers
      rw [if_neg hlen]
    cases maxWorkers with
    | zero =>
      have hw2 : (initializeWorkers s (List.replicate 0 true)).workers = [] := by
        simpa using hinitw
      rw [hw2]
      refine ⟨?_, ?_, ?_⟩
      · intro j w hj
        rw [show findIdleIdx ([] : List WorkerInstance) = none from rfl] at hj
        dsimp only at hj
        rw [hw2] at hj
        simp at hj
      · intro _ j w hj
        rw [show findIdleIdx ([] : List WorkerInstance) = none from rfl] at hj
        dsimp only at hj
        rw [hw2] at hj
        simp at hj
      · intro hm
        exact absurd hm (by omega)
    | succ W2 =>
      have hq0 : s.taskQueue = [] := by
        by_contra hne
        exact (h.2.2 (by omega) hne) hwnil
      have hfind : findIdleIdx ((initializeWorkers s
          (List.replicate (W2 + 1) true)).workers) = some 0 := by
        rw [hinitw, List.replicate_succ]
        unfold findIdleIdx
        simp
      rw [hfind]
      show PoolAux (W2 + 1) (assignTask (initializeWorkers s
        (List.replicate (W2 + 1) true)) 0 t)
      unfold assignTask
      rw [hinitq, hq0, hinitw]
      have hrec := assignLoop_inv []
        (List.replicate (W2 + 1) (⟨false, none⟩ : WorkerInstance)) 0 t
        (by simp) (fun j w hj => by
          rw [List.getElem?_replicate] at hj
          split at hj
          · cases Option.some.inj hj
            simp
          · exact absurd hj (by simp))
        (fun hne => absurd rfl hne)
      refine ⟨hrec.1, hrec.2, ?_⟩
      intro _ _
      show (assignLoop [] (List.replicate (W2 + 1)
        (⟨false, none⟩ : WorkerInstance)) 0 t).workers ≠ []
      have hl := assignLoop_workers_length []
        (List.replicate (W2 + 1) (⟨false, none⟩ : WorkerInstance)) 0 t
      intro hcon
      rw [hcon] at hl
      simp at hl

theorem initializeWorkers_busyIff (s : PoolState) (outcomes : List Bool)
    (h : busyIffTask s) : busyIffTask (initializeWorkers s outcomes) := by
  unfold initializeWorkers
  split
  · exact h
  · intro j w hj
    dsimp only at hj
    rw [List.getElem?_map] at hj
    cases hg : (outcomes.filter (fun b => b))[j]? with
    | none => rw [hg] at hj; exact absurd hj (by simp)
    | some b =>
      rw [hg] at hj
      cases Option.some.inj hj
      simp

theorem processNextTask_busyIff (s : PoolState) (idx : Nat)
    (h : busyIffTask s) : busyIffTask (processNextTask s idx) := by
  unfold processNextTask
  split
  · exact h
  · rename_i q rest hq
    exact assignLoop_busyIff rest s.workers idx q h

theorem handleWorkerMessage_busyIff (s : PoolState) (idx : Nat)
    (h : busyIffTask s) : busyIffTask (handleWorkerMessage s idx) := by
  unfold handleWorkerMessage
  split
  · exact h
  · split
    · exact h
    · exact processNextTask_busyIff _ idx
        (busyIffW_set s.workers idx ⟨false, none⟩ (by simp) h)

theorem handleWorkerError_busyIff (s : PoolState) (idx : Nat)
    (h : busyIffTask s) : busyIffTask (handleWorkerError s idx) := by
  unfold handleWorkerError
  split
  · exact h
  · split
    · exact processNextTask_busyIff s idx h
    · exact processNextTask_busyIff _ idx
        (busyIffW_set s.workers idx ⟨false, none⟩ (by simp) h)

theorem submitTask_busyIff (s : PoolState) (outcomes : List Bool)
    (t : PWorkerTask) (h : busyIffTask s) :
    busyIffTask (submitTask s outcomes t) := by
  unfold submitTask
  split
  · rename_i idx hfind
    exact assignLoop_busyIff _ _ idx t (initializeWorkers_busyIff s outcomes h)
  · intro j w hj
    dsimp only at hj
    exact initializeWorkers_busyIff s outcomes h j w hj

theorem poolReachable_busyIff (s : PoolState) (h : PoolReachable s) :
    busyIffTask s := by
  induction h with
  | init => intro j w hj; simp at hj
  | step _ hstep ih =>
    cases hstep with
    | submit outcomes t => exact submitTask_busyIff _ outcomes t ih
    | message idx => exact handleWorkerMessage_busyIff _ idx ih
    | workerError idx => exact handleWorkerError_busyIff _ idx ih

theorem poolReachableOk_aux (maxWorkers : Nat) (s : PoolState)
    (h : PoolReachableOk maxWorkers s) : PoolAux maxWorkers s := by
  induction h with
  | init =>
    refine ⟨?_, ?_, ?_⟩
    · intro j w hj; simp at hj
    · intro hne; exact absurd rfl hne
    · intro _ hne; exact absurd rfl hne
  | step _ hstep ih =>
    cases hstep with
    | submit t => exact submitTask_ok_aux maxWorkers _ t ih
    | message idx => exact handleWorkerMessage_aux maxWorkers _ idx ih
    | workerError idx => exact handleWorkerError_aux maxWorkers _ idx ih

/-- Claim C9 (amended): in every state reachable by any sequence of task
submissions and message/error completions, each worker instance is busy
exactly when its current task is non-null; and on a host where worker
creation always succeeds (a fixed, fully-constructed pool), additionally
whenever the task queue is non-empty every existing worker is busy — a
task is queued only when no worker was idle at submission, and a
completing worker immediately dequeues the oldest pending task. -/
theorem workerPool_invariant :
    (∀ s : PoolState, PoolReachable s →
      ∀ w ∈ s.workers, w.isBusy = true ↔ w.currentTask ≠ none) ∧
    (∀ (maxWorkers : Nat) (s : PoolState), PoolReachableOk maxWorkers s →
      (∀ w ∈ s.workers, w.isBusy = true ↔ w.currentTask ≠ none) ∧
      (s.taskQueue ≠ [] → ∀ w ∈ s.workers, w.isBusy = true)) := by
  constructor
  · intro s hs w hw
    obtain ⟨j, hj⟩ := List.mem_iff_getElem?.mp hw
    exact poolReachable_busyIff s hs j w hj
  · intro maxWorkers s hs
    have h := poolReachableOk_aux maxWorkers s hs
    constructor
    · intro w hw
      obtain ⟨j, hj⟩ := List.mem_iff_getElem?.mp hw
      exact h.1 j w hj
    · intro hne w hw
      obtain ⟨j, hj⟩ := List.mem_iff_getElem?.mp hw
      exact h.2.1 hne j w hj

def t1W : PWorkerTask := { startIndex := 0, endIndex := 1, postOk := true }

def t2W : PWorkerTask := { startIndex := 1, endIndex := 2, postOk := true }

/-- The state reached by submitting `t1W` while every worker creation
fails, then submitting `t2W` after two creations succeed. -/
def sBadPool : PoolState :=
  { workers := [⟨true, some t2W⟩, ⟨false, none⟩], taskQueue := [t1W] }

/-- Counterexample to claim C9 as stated: worker creation is lazy and a
failed `createWorker` is caught and skipped, so a submission while no
worker could be created queues the task with zero workers; a later
submission re-runs initialization, creates two workers and assigns only
the new task — reaching a state where the queue is non-empty yet a worker
is idle. -/
theorem workerPool_idle_with_queue_counterexample :
    PoolReachable sBadPool ∧ sBadPool.taskQueue ≠ [] ∧
      ∃ w ∈ sBadPool.workers, w.isBusy = false := by
  refine ⟨?_, by decide, ?_⟩
  · have h1 : PoolReachable (submitTask ⟨[], []⟩ [false, false] t1W) :=
      PoolReachable.step PoolReachable.init (PoolStep.submit _ _ _)
    have h2 : PoolReachable (submitTask (submitTask ⟨[], []⟩ [false, false] t1W)
        [true, true] t2W) :=
      PoolReachable.step h1 (PoolStep.submit _ _ _)
    have heq : submitTask (submitTask ⟨[], []⟩ [false, false] t1W)
        [true, true] t2W = sBadPool := by decide
    rw [heq] at h2
    exact h2
  · exact ⟨⟨false, none⟩, by decide, rfl⟩

/-- Witness for the amended pool theorem: after one reliable submission to
a one-worker pool, the queue-implies-all-busy property holds. -/
theorem workerPool_invariant_witness :
    PoolReachableOk 1 (submitTask ⟨[], []⟩ (List.replicate 1 true) t1W) ∧
      ((submitTask ⟨[], []⟩ (List.replicate 1 true) t1W).taskQueue ≠ [] →
        ∀ w ∈ (submitTask ⟨[], []⟩ (List.replicate 1 true) t1W).workers,
          w.isBusy = true) :=
  ⟨PoolReachableOk.step PoolReachableOk.init (PoolStepOk.submit _ _),
    (workerPool_invariant.2 1 _
      (PoolReachableOk.step PoolReachableOk.init (PoolStepOk.submit _ _))).2⟩
